import Mathlib

/-!
# tetris-web: the grid / piece state machine of `src/tetris.js`

A shallow embedding of the game core of `tetris.js`: the grid, the falling
piece, placement checks, locking, line clearing, spawning, rotation, movement,
the soft-drop step, the pause toggle, the gravity clock `frame` and the guards
under which the input handlers call `rotateCurrent`.

Conventions of the embedding.

* The script's module-level variables (`grid`, `currentPiece`, `nextPiece`,
  `pieceX`, `pieceY`, `pieceColorIndex`, `score`, `gameOver`, `paused`,
  `dropAccumulator`, `lastTs`) are the fields of the record `Game`; a function
  that mutates them is a function from `Game` to `Game`.
* JavaScript numbers that the core handles are integers, modelled by `Int`
  (a negative zero produced by `-x` behaves as `0` in every comparison,
  subtraction and array index the core performs).
* `null` is `none`.  A run that throws (`grid[gy]` is `undefined` and is then
  indexed, a `for ... of` over `null`, `clonePiece(undefined)`) has result
  `none`; so has a write past the end of a row, which would leave a sparse
  array that the dense `List (List Int)` grid cannot hold.
* `Math.random()` is an input: the indices `Math.floor(Math.random() * 7)` drawn
  by one call of `spawnPiece` are the fields of `Rand`.
* Timestamps are whole milliseconds; a loop that has no structural bound
  (`clearLines`, the catch-up loop of `frame`) runs on fuel, and its theorems
  hold for every fuel from a stated bound on.
* The DOM (canvas, HUD text, overlay) is not part of the state.
-/

namespace Tetris

/-- A piece: the list of its `[x, y]` offsets. -/
abbrev Piece := List (Int × Int)

/-- The grid: `grid[y][x]`, `0` for an empty cell. -/
abbrev Grid := List (List Int)

def GRID_W : Nat := 10

def GRID_H : Nat := 20

def DROP_MS : Int := 500

def COLORS : List String :=
  ["#00ffff", "#0000ff", "#ffa500", "#ffff00", "#00ff00", "#ff00ff", "#ff0000"]

def PIECES : List Piece :=
  [ [(0, 0), (1, 0), (2, 0), (3, 0)],   -- I
    [(0, 0), (1, 0), (0, 1), (1, 1)],   -- O
    [(0, 0), (1, 0), (2, 0), (1, 1)],   -- T
    [(1, 0), (2, 0), (0, 1), (1, 1)],   -- S
    [(0, 0), (1, 0), (1, 1), (2, 1)],   -- Z
    [(0, 0), (0, 1), (1, 1), (2, 1)],   -- J
    [(2, 0), (0, 1), (1, 1), (2, 1)] ]  -- L

/-- The module-level variables of the script. -/
structure Game where
  grid : Grid
  currentPiece : Option Piece
  nextPiece : Option Piece
  pieceX : Int
  pieceY : Int
  pieceColorIndex : Int
  score : Int
  gameOver : Bool
  paused : Bool
  dropAccumulator : Int
  lastTs : Int
  deriving DecidableEq

/-- The random draws of one `spawnPiece` call, in source order: the index of
`randomPiece()` for `currentPiece` (drawn on the first spawn only), the colour
index, and the index of `randomPiece()` for `nextPiece`. -/
structure Rand where
  piece : Nat
  color : Nat
  next : Nat
  deriving DecidableEq

/-- What `Math.floor(Math.random() * 7)` can return: each draw is in `0..6`. -/
def Rand.valid (r : Rand) : Prop :=
  r.piece < PIECES.length ∧ r.color < COLORS.length ∧ r.next < PIECES.length

instance (r : Rand) : Decidable r.valid :=
  inferInstanceAs
    (Decidable (r.piece < PIECES.length ∧ r.color < COLORS.length ∧ r.next < PIECES.length))

/-- Array read `xs[i]`; `none` is `undefined`. -/
def jsGet {α : Type} (xs : List α) (i : Int) : Option α :=
  if i < 0 then none else xs[i.toNat]?

/-- The read `grid[gy][gx]`; `none` when the row or the cell is undefined. -/
def cellAt (grid : Grid) (gy gx : Int) : Option Int :=
  match jsGet grid gy with
  | none => none
  | some row => jsGet row gx

/-- The shape of the board: `GRID_H` rows of `GRID_W` cells. -/
def gridShape (grid : Grid) : Prop :=
  grid.length = GRID_H ∧ ∀ row ∈ grid, row.length = GRID_W

instance (grid : Grid) : Decidable (gridShape grid) :=
  inferInstanceAs (Decidable (grid.length = GRID_H ∧ ∀ row ∈ grid, row.length = GRID_W))

/-- The copy `piece.map(([x, y]) => [x, y])`. -/
def clonePiece (piece : Piece) : Piece :=
  piece.map (fun (x, y) => (x, y))

/-- The call `clonePiece(PIECES[idx])` for the drawn index `idx`; `PIECES[idx]` undefined
makes `clonePiece` throw. -/
def randomPiece (idx : Nat) : Option Piece :=
  match PIECES[idx]? with
  | none => none
  | some piece => some (clonePiece piece)

/-- The loop of `canPlace(piece, x, y)` over the offsets of `piece`. -/
def canPlace (grid : Grid) : Piece → Int → Int → Option Bool
  | [], _, _ => some true
  | (bx, by_) :: rest, x, y =>
    let gx := x + bx
    let gy := y + by_
    if gx < 0 ∨ gx ≥ GRID_W ∨ gy ≥ GRID_H then some false
    else if gy ≥ 0 then
      match jsGet grid gy with
      | none => none
      | some row =>
        match jsGet row gx with
        | none => some false
        | some v => if v ≠ 0 then some false else canPlace grid rest x y
    else canPlace grid rest x y

/-- The index pairs `(gy, gx)` at which a run of `canPlace(piece, x, y)`
evaluates `grid[gy][gx]`, in order: the control flow of `canPlace`, recording
each read. -/
def canPlaceReads (grid : Grid) : Piece → Int → Int → List (Int × Int)
  | [], _, _ => []
  | (bx, by_) :: rest, x, y =>
    let gx := x + bx
    let gy := y + by_
    if gx < 0 ∨ gx ≥ GRID_W ∨ gy ≥ GRID_H then []
    else if gy ≥ 0 then
      match jsGet grid gy with
      | none => [(gy, gx)]
      | some row =>
        match jsGet row gx with
        | none => [(gy, gx)]
        | some v => if v ≠ 0 then [(gy, gx)] else (gy, gx) :: canPlaceReads grid rest x y
    else canPlaceReads grid rest x y

/-- The assignment `grid[gy][gx] = v`. -/
def setCell (grid : Grid) (gy gx : Int) (v : Int) : Option Grid :=
  match jsGet grid gy with
  | none => none
  | some row =>
    if 0 ≤ gx ∧ gx.toNat < row.length then
      some (grid.set gy.toNat (row.set gx.toNat v))
    else none

/-- The loop of `placePiece()` over the offsets of the piece, on the grid. -/
def placeCells (grid : Grid) : Piece → Int → Int → Int → Option Grid
  | [], _, _, _ => some grid
  | (bx, by_) :: rest, pieceX, pieceY, pieceColorIndex =>
    let gx := pieceX + bx
    let gy := pieceY + by_
    if gy ≥ 0 ∧ gy < GRID_H ∧ gx ≥ 0 ∧ gx < GRID_W then
      match setCell grid gy gx (pieceColorIndex + 1) with
      | none => none
      | some grid1 => placeCells grid1 rest pieceX pieceY pieceColorIndex
    else placeCells grid rest pieceX pieceY pieceColorIndex

/-- The function `placePiece()`. -/
def placePiece (s : Game) : Option Game :=
  match s.currentPiece with
  | none => none
  | some piece =>
    match placeCells s.grid piece s.pieceX s.pieceY s.pieceColorIndex with
    | none => none
    | some grid1 => some { s with grid := grid1 }

/-- The test `row.every((v) => v !== 0)`. -/
def isFull (row : List Int) : Bool :=
  row.all (fun v => v != 0)

/-- The row `Array(GRID_W).fill(0)`. -/
def emptyRow : List Int :=
  List.replicate GRID_W 0

/-- The `while (y >= 0)` loop of `clearLines()`, one iteration per unit of
fuel; `none` when `grid[y]` is undefined or the fuel is used up. -/
def clearLinesLoop : Nat → Grid → Int → Nat → Option (Grid × Nat)
  | 0, _, _, _ => none
  | fuel + 1, grid, y, cleared =>
    if y ≥ 0 then
      match jsGet grid y with
      | none => none
      | some row =>
        if isFull row then
          clearLinesLoop fuel (emptyRow :: grid.eraseIdx y.toNat) y (cleared + 1)
        else
          clearLinesLoop fuel grid (y - 1) cleared
    else some (grid, cleared)

/-- Fuel for the loop of `clearLines()`: a scan makes at most `GRID_H`
decrements of `y` and at most `GRID_H` removals, then one failing loop test. -/
def clearLinesFuel : Nat := 2 * GRID_H + 1

/-- The function `clearLines()`. -/
def clearLines (s : Game) : Option Game :=
  match clearLinesLoop clearLinesFuel s.grid ((GRID_H : Int) - 1) 0 with
  | none => none
  | some (grid1, cleared) =>
    some { s with
      grid := grid1
      score := if cleared > 0 then s.score + (cleared : Int) * 100 else s.score }

/-- The function `spawnPiece(isFirst)` with the draws `r`. -/
def spawnPiece (s : Game) (isFirst : Bool) (r : Rand) : Option Game :=
  let cur : Option (Option Piece) :=
    if !isFirst && s.currentPiece.isSome then some s.nextPiece
    else (randomPiece r.piece).map some
  match cur, randomPiece r.next with
  | some (some piece), some next =>
    let pieceX : Int := ((GRID_W / 2 : Nat) : Int) - 1
    let pieceY : Int := 0
    match canPlace s.grid piece pieceX pieceY with
    | none => none
    | some ok =>
      some { s with
        currentPiece := some piece
        pieceColorIndex := (r.color : Int)
        nextPiece := some next
        pieceX := pieceX
        pieceY := pieceY
        gameOver := if !ok then true else s.gameOver }
  | _, _ => none

/-- The function `reset()` with the draws `r` of its `spawnPiece(true)`. -/
def reset (s : Game) (r : Rand) : Option Game :=
  spawnPiece
    { s with
      grid := List.replicate GRID_H (List.replicate GRID_W 0)
      score := 0
      gameOver := false
      paused := false
      dropAccumulator := 0
      lastTs := 0
      currentPiece := none
      nextPiece := none }
    true r

/-- The list `currentPiece.map(([x, y]) => [y, -x])`. -/
def rotated (piece : Piece) : Piece :=
  piece.map (fun (x, y) => (y, -x))

/-- The comparison `x < m` where `none` is the initial `Infinity`. -/
def ltInf (x : Int) (m : Option Int) : Bool :=
  match m with
  | none => true
  | some m => x < m

/-- The loop computing `minX` and `minY`, from `Infinity` (`none`). -/
def minXY (piece : Piece) : Option Int × Option Int :=
  piece.foldl
    (fun (m : Option Int × Option Int) (c : Int × Int) =>
      (if ltInf c.1 m.1 then some c.1 else m.1, if ltInf c.2 m.2 then some c.2 else m.2))
    (none, none)

/-- The candidate `normalized` of `rotateCurrent()`.  A minimum is still
`Infinity` only when `rotated` is empty, and the final `map` then visits
nothing. -/
def normalized (piece : Piece) : Piece :=
  match minXY (rotated piece) with
  | (some minX, some minY) => (rotated piece).map (fun (x, y) => (x - minX, y - minY))
  | _ => []

/-- The function `rotateCurrent()`. -/
def rotateCurrent (s : Game) : Option Game :=
  match s.currentPiece with
  | none => some s
  | some piece =>
    match canPlace s.grid (normalized piece) s.pieceX s.pieceY with
    | none => none
    | some true => some { s with currentPiece := some (normalized piece) }
    | some false => some s

/-- The function `move(dx, dy)`: the state after the call and the value returned
(`none` for `undefined`). -/
def move (s : Game) (dx dy : Int) : Option (Game × Option Bool) :=
  match s.currentPiece with
  | none => some (s, none)
  | some piece =>
    if s.gameOver || s.paused then some (s, none)
    else
      match canPlace s.grid piece (s.pieceX + dx) (s.pieceY + dy) with
      | none => none
      | some true => some ({ s with pieceX := s.pieceX + dx, pieceY := s.pieceY + dy }, some true)
      | some false => some (s, some false)

/-- The function `softDropStep()` with the draws `r` of its `spawnPiece(false)`. -/
def softDropStep (s : Game) (r : Rand) : Option Game :=
  if s.currentPiece.isNone || s.gameOver || s.paused then some s
  else
    match move s 0 1 with
    | none => none
    | some (s1, ret) =>
      if ret = some true then some s1
      else
        match placePiece s1 with
        | none => none
        | some s2 =>
          match clearLines s2 with
          | none => none
          | some s3 => spawnPiece s3 false r

/-- The function `togglePause()`. -/
def togglePause (s : Game) : Game :=
  if s.gameOver then s else { s with paused := !s.paused }

/-- A cell is empty (`0`) or holds a palette index plus one (`1..7`). -/
def cellValid (v : Int) : Prop :=
  v = 0 ∨ (1 ≤ v ∧ v ≤ (COLORS.length : Int))

instance (v : Int) : Decidable (cellValid v) :=
  inferInstanceAs (Decidable (v = 0 ∨ (1 ≤ v ∧ v ≤ (COLORS.length : Int))))

/-- The board invariant: `GRID_H` rows of `GRID_W` cells, every cell valid. -/
def gridValid (grid : Grid) : Prop :=
  gridShape grid ∧ ∀ row ∈ grid, ∀ v ∈ row, cellValid v

instance (grid : Grid) : Decidable (gridValid grid) :=
  inferInstanceAs (Decidable (gridShape grid ∧ ∀ row ∈ grid, ∀ v ∈ row, cellValid v))

/-- The states reachable from a `reset()` (from any earlier state) by calls of
`softDropStep`, `move`, `rotateCurrent`, `togglePause` and `reset`, each random
draw being in `0..6`. -/
inductive Reachable : Game → Prop
  | reset (s0 s : Game) (r : Rand) :
      r.valid → reset s0 r = some s → Reachable s
  | softDropStep (s s1 : Game) (r : Rand) :
      Reachable s → r.valid → softDropStep s r = some s1 → Reachable s1
  | move (s s1 : Game) (dx dy : Int) (ret : Option Bool) :
      Reachable s → move s dx dy = some (s1, ret) → Reachable s1
  | rotateCurrent (s s1 : Game) :
      Reachable s → rotateCurrent s = some s1 → Reachable s1
  | togglePause (s : Game) :
      Reachable s → Reachable (togglePause s)

/-- The empty board built by `reset()`. -/
def emptyGrid : Grid :=
  List.replicate GRID_H (List.replicate GRID_W 0)

/-- A sample state: empty board, the T piece falling at the spawn anchor, the O
piece queued. -/
def sampleGame : Game :=
  { grid := emptyGrid
    currentPiece := some [(0, 0), (1, 0), (2, 0), (1, 1)]
    nextPiece := some [(0, 0), (1, 0), (0, 1), (1, 1)]
    pieceX := 4
    pieceY := 0
    pieceColorIndex := 2
    score := 0
    gameOver := false
    paused := false
    dropAccumulator := 0
    lastTs := 0 }

/-- The sample state with the T piece resting on the floor (rows 18 and 19). -/
def landedGame : Game :=
  { sampleGame with pieceY := 18 }

/-- A board whose rows 15, 17 and 18 are full, with partly filled rows 16 and 19
between and below them. -/
def stackedGrid : Grid :=
  List.replicate 15 (List.replicate 10 0) ++
    [ List.replicate 10 3,
      [1, 0, 0, 0, 0, 0, 0, 0, 0, 0],
      List.replicate 10 5,
      List.replicate 10 7,
      [0, 2, 0, 0, 0, 0, 0, 0, 0, 0] ]

/-- The sample state on the board `stackedGrid`. -/
def stackedGame : Game :=
  { sampleGame with grid := stackedGrid }

/-- The board `stackedGrid` after its three full rows are cleared. -/
def stackedCleared : Grid :=
  List.replicate 18 (List.replicate 10 0) ++
    [ [1, 0, 0, 0, 0, 0, 0, 0, 0, 0],
      [0, 2, 0, 0, 0, 0, 0, 0, 0, 0] ]

/-- A board whose bottom row lacks only column 5. -/
def tuckedGrid : Grid :=
  List.replicate 19 (List.replicate 10 0) ++ [[1, 1, 1, 1, 1, 0, 1, 1, 1, 1]]

/-- The T piece at anchor `(4, 18)` on `tuckedGrid`: its stem fills the gap of the
bottom row and it cannot descend. -/
def tuckedGame : Game :=
  { sampleGame with grid := tuckedGrid, pieceY := 18 }

/-- The sample state after the session has ended. -/
def overGame : Game :=
  { sampleGame with gameOver := true }

/-- The state built by `reset()` with the draws `sampleRand` below. -/
def startGame : Game :=
  { grid := emptyGrid
    currentPiece := some [(1, 0), (2, 0), (0, 1), (1, 1)]
    nextPiece := some [(0, 0), (0, 1), (1, 1), (2, 1)]
    pieceX := 4
    pieceY := 0
    pieceColorIndex := 2
    score := 0
    gameOver := false
    paused := false
    dropAccumulator := 0
    lastTs := 0 }

/-- Sample draws: the S piece, the third colour, the J piece. -/
def sampleRand : Rand :=
  { piece := 3, color := 2, next := 5 }

/-- The elapsed time `dt` computed by `frame(ts)`: `lastTs` is first set to `ts`
when it is `0`.  Timestamps are in whole milliseconds. -/
def dt (s : Game) (ts : Int) : Int :=
  ts - (if s.lastTs = 0 then ts else s.lastTs)

/-- Fuel for the catch-up loop of `frame`: one iteration per whole interval held
by the accumulator, then one failing loop test. -/
def frameFuel (dropAccumulator : Int) : Nat :=
  (dropAccumulator / DROP_MS).toNat + 1

/-- The `while (dropAccumulator >= DROP_MS)` loop of `frame`, one iteration per
unit of fuel.  The draws of the `i`-th call of `softDropStep` are `rands i`; the
list `calls` records, in order, the state in which each call is made. -/
def frameLoop : Nat → Game → (Nat → Rand) → List Game → Option (Game × List Game)
  | 0, _, _, _ => none
  | fuel + 1, s, rands, calls =>
    if s.dropAccumulator ≥ DROP_MS then
      let s1 : Game := { s with dropAccumulator := s.dropAccumulator - DROP_MS }
      match softDropStep s1 (rands calls.length) with
      | none => none
      | some s2 => frameLoop fuel s2 rands (calls ++ [s1])
    else some (s, calls)

/-- The state part of `frame(ts)` (drawing and the request for the next frame
are outside the state), with the states in which it called `softDropStep`. -/
def frame (s : Game) (ts : Int) (rands : Nat → Rand) : Option (Game × List Game) :=
  let s1 : Game := { s with lastTs := ts }
  if !s1.paused && !s1.gameOver then
    let s2 : Game := { s1 with dropAccumulator := s1.dropAccumulator + dt s ts }
    frameLoop (frameFuel s2.dropAccumulator) s2 rands []
  else some (s1, [])

/-- The guarded call `if (!paused && !gameOver) rotateCurrent();` made by the
`ArrowUp` branch of the key handler and by the canvas tap. -/
def keyArrowUp (s : Game) : Option Game :=
  if !s.paused && !s.gameOver then rotateCurrent s else some s

/-- The wrapper `doAction` of `attachRepeat` around the action of a touch
button. -/
def doAction (action : Game → Option Game) (s : Game) : Option Game :=
  if s.gameOver then some s
  else if s.paused then some s
  else action s

/-- Two offset lists cover the same set of cells. -/
def sameCells (p q : Piece) : Prop :=
  (∀ c ∈ p, c ∈ q) ∧ (∀ c ∈ q, c ∈ p)

instance (p q : Piece) : Decidable (sameCells p q) :=
  inferInstanceAs (Decidable ((∀ c ∈ p, c ∈ q) ∧ (∀ c ∈ q, c ∈ p)))

/-- The states reachable from a `reset()` by the actions the input layer and the
gravity clock issue: `move(-1, 0)`, `move(1, 0)`, `move(0, 1)`, `rotateCurrent`,
`softDropStep`, `togglePause` and `reset`, each random draw being in `0..6`. -/
inductive ReachableInput : Game → Prop
  | reset (s0 s : Game) (r : Rand) :
      r.valid → reset s0 r = some s → ReachableInput s
  | softDropStep (s s1 : Game) (r : Rand) :
      ReachableInput s → r.valid → softDropStep s r = some s1 → ReachableInput s1
  | moveLeft (s s1 : Game) (ret : Option Bool) :
      ReachableInput s → move s (-1) 0 = some (s1, ret) → ReachableInput s1
  | moveRight (s s1 : Game) (ret : Option Bool) :
      ReachableInput s → move s 1 0 = some (s1, ret) → ReachableInput s1
  | moveDown (s s1 : Game) (ret : Option Bool) :
      ReachableInput s → move s 0 1 = some (s1, ret) → ReachableInput s1
  | rotateCurrent (s s1 : Game) :
      ReachableInput s → rotateCurrent s = some s1 → ReachableInput s1
  | togglePause (s : Game) :
      ReachableInput s → ReachableInput (togglePause s)

/-- The sample state while paused. -/
def pausedGame : Game :=
  { sampleGame with paused := true }

/-- A board whose column 4 is occupied from row 2 down to the floor. -/
def toppedGrid : Grid :=
  List.replicate 2 (List.replicate 10 0) ++
    List.replicate 18 [0, 0, 0, 0, 1, 0, 0, 0, 0, 0]

/-- The O piece at the spawn anchor on `toppedGrid`, resting on the stack, with
another O queued; the previous frame was at `1000` ms. -/
def toppedGame : Game :=
  { sampleGame with
    grid := toppedGrid
    currentPiece := some [(0, 0), (1, 0), (0, 1), (1, 1)]
    lastTs := 1000 }

/-- The sample state with the previous frame at `1000` ms. -/
def tickingGame : Game :=
  { sampleGame with lastTs := 1000 }

/-! ## Array reads and writes -/

theorem jsGet_ofNat {α : Type} (xs : List α) (n : Nat) : jsGet xs (n : Int) = xs[n]? := by
  simp [jsGet]

theorem jsGet_some_of_lt {α : Type} (xs : List α) (i : Int) (h0 : 0 ≤ i)
    (h1 : i < (xs.length : Int)) : ∃ a, jsGet xs i = some a ∧ a ∈ xs := by
  obtain ⟨n, rfl⟩ := Int.eq_ofNat_of_zero_le h0
  have hn : n < xs.length := by omega
  refine ⟨xs[n], ?_, List.getElem_mem _⟩
  rw [jsGet_ofNat]; exact List.getElem?_eq_getElem hn

theorem jsGet_set {α : Type} (xs : List α) (n : Nat) (a : α) (i : Int) (hn : n < xs.length) :
    jsGet (xs.set n a) i = if i = (n : Int) then some a else jsGet xs i := by
  by_cases hi : i < 0
  · have : i ≠ (n : Int) := by omega
    simp [jsGet, hi, this]
  · obtain ⟨m, rfl⟩ := Int.eq_ofNat_of_zero_le (not_lt.1 hi)
    rw [jsGet_ofNat, jsGet_ofNat, List.getElem?_set]
    by_cases hmn : n = m
    · subst hmn; simp [hn]
    · have : ¬ ((m : Int) = (n : Int)) := by omega
      simp [hmn, this]

/-! ## `canPlace` and `placePiece` on a well-shaped board -/

theorem gridShape_read (grid : Grid) (hg : gridShape grid) (gy gx : Int)
    (hy0 : 0 ≤ gy) (hy1 : gy < GRID_H) (hx0 : 0 ≤ gx) (hx1 : gx < GRID_W) :
    ∃ row v, jsGet grid gy = some row ∧ jsGet row gx = some v ∧ row ∈ grid := by
  obtain ⟨row, hrow, hmem⟩ := jsGet_some_of_lt grid gy hy0 (by rw [hg.1]; exact hy1)
  obtain ⟨v, hv, _⟩ := jsGet_some_of_lt row gx hx0 (by rw [hg.2 row hmem]; exact hx1)
  exact ⟨row, v, hrow, hv, hmem⟩

theorem canPlace_true_iff (grid : Grid) (hg : gridShape grid) (piece : Piece) (x y : Int) :
    canPlace grid piece x y = some true ↔
      ∀ o ∈ piece, 0 ≤ x + o.1 ∧ x + o.1 < 10 ∧ y + o.2 < 20 ∧
        (y + o.2 < 0 ∨ cellAt grid (y + o.2) (x + o.1) = some 0) := by
  induction piece with
  | nil => simp [canPlace]
  | cons o rest ih =>
    obtain ⟨bx, by_⟩ := o
    unfold canPlace
    simp only [List.mem_cons, forall_eq_or_imp]
    by_cases hb : x + bx < 0 ∨ x + bx ≥ (GRID_W : Int) ∨ y + by_ ≥ (GRID_H : Int)
    · simp only [hb, if_true]
      simp [GRID_W, GRID_H] at hb
      constructor
      · intro h; simp at h
      · rintro ⟨⟨h1, h2, h3, _⟩, _⟩; omega
    · simp only [hb, if_false]
      simp [GRID_W, GRID_H] at hb
      by_cases hy : y + by_ ≥ 0
      · simp only [hy, if_true]
        obtain ⟨row, v, hrow, hv, _⟩ := gridShape_read grid hg (y + by_) (x + bx) hy
          (by simp [GRID_H]; omega) (by omega) (by simp [GRID_W]; omega)
        simp only [hrow, hv, cellAt]
        by_cases hv0 : v = 0
        · subst hv0
          simp only [ne_eq, not_true_eq_false, if_false, ih]
          constructor
          · intro h; exact ⟨⟨by omega, by omega, by omega, Or.inr trivial⟩, h⟩
          · intro h; exact h.2
        · simp only [ne_eq, hv0, not_false_eq_true, if_true]
          constructor
          · intro h; simp at h
          · rintro ⟨⟨_, _, _, h4⟩, _⟩
            rcases h4 with h4 | h4
            · omega
            · simp at h4; exact absurd h4 hv0
      · simp only [hy, if_false, ih]
        constructor
        · intro h; exact ⟨⟨by omega, by omega, by omega, Or.inl (by omega)⟩, h⟩
        · intro h; exact h.2

theorem canPlace_total (grid : Grid) (hg : gridShape grid) (piece : Piece) (x y : Int) :
    ∃ b, canPlace grid piece x y = some b := by
  induction piece with
  | nil => exact ⟨true, rfl⟩
  | cons o rest ih =>
    obtain ⟨bx, by_⟩ := o
    unfold canPlace
    by_cases hb : x + bx < 0 ∨ x + bx ≥ (GRID_W : Int) ∨ y + by_ ≥ (GRID_H : Int)
    · exact ⟨false, by simp only [hb, if_true]⟩
    · simp only [hb, if_false]
      by_cases hy : y + by_ ≥ 0
      · simp only [hy, if_true]
        obtain ⟨row, v, hrow, hv, _⟩ := gridShape_read grid hg (y + by_) (x + bx) hy
          (by omega) (by omega) (by omega)
        simp only [hrow, hv]
        by_cases hv0 : v = 0
        · simpa [hv0] using ih
        · exact ⟨false, by simp [hv0]⟩
      · simpa only [hy, if_false] using ih

theorem canPlaceReads_range (grid : Grid) (piece : Piece) (x y : Int) :
    ∀ rd ∈ canPlaceReads grid piece x y,
      0 ≤ rd.1 ∧ rd.1 < GRID_H ∧ 0 ≤ rd.2 ∧ rd.2 < GRID_W := by
  induction piece with
  | nil => simp [canPlaceReads]
  | cons o rest ih =>
    obtain ⟨bx, by_⟩ := o
    unfold canPlaceReads
    by_cases hb : x + bx < 0 ∨ x + bx ≥ (GRID_W : Int) ∨ y + by_ ≥ (GRID_H : Int)
    · simp only [hb, if_true]; simp
    · simp only [hb, if_false]
      by_cases hy : y + by_ ≥ 0
      · simp only [hy, if_true]
        have hin : 0 ≤ y + by_ ∧ y + by_ < GRID_H ∧ 0 ≤ x + bx ∧ x + bx < GRID_W := by omega
        intro rd hrd
        split at hrd
        · simp only [List.mem_singleton] at hrd; subst hrd; exact hin
        · split at hrd
          · simp only [List.mem_singleton] at hrd; subst hrd; exact hin
          · split at hrd
            · simp only [List.mem_singleton] at hrd; subst hrd; exact hin
            · rcases List.mem_cons.1 hrd with h | h
              · subst h; exact hin
              · exact ih rd h
      · simpa only [hy, if_false] using ih

theorem setCell_spec (grid : Grid) (hg : gridShape grid) (gy gx v : Int)
    (hy0 : 0 ≤ gy) (hy1 : gy < GRID_H) (hx0 : 0 ≤ gx) (hx1 : gx < GRID_W) :
    ∃ grid1, setCell grid gy gx v = some grid1 ∧ gridShape grid1 ∧
      ∀ cy cx, cellAt grid1 cy cx =
        if cy = gy ∧ cx = gx then some v else cellAt grid cy cx := by
  obtain ⟨row, hrow, hmem⟩ := jsGet_some_of_lt grid gy hy0 (by rw [hg.1]; exact hy1)
  have hrl : row.length = GRID_W := hg.2 row hmem
  obtain ⟨n, rfl⟩ := Int.eq_ofNat_of_zero_le hy0
  obtain ⟨m, rfl⟩ := Int.eq_ofNat_of_zero_le hx0
  have hn : n < grid.length := by rw [hg.1]; omega
  have hm : m < row.length := by rw [hrl]; omega
  refine ⟨grid.set n (row.set m v), ?_, ?_, ?_⟩
  · simp only [setCell, hrow, Int.toNat_ofNat]
    rw [if_pos ⟨hx0, hm⟩]
  · refine ⟨by rw [List.length_set]; exact hg.1, ?_⟩
    intro r hr
    rcases List.mem_or_eq_of_mem_set hr with h | h
    · exact hg.2 r h
    · rw [h, List.length_set]; exact hrl
  · intro cy cx
    unfold cellAt
    rw [jsGet_set grid n _ cy hn]
    by_cases hcy : cy = (n : Int)
    · subst hcy
      simp only [if_true, true_and, hrow]
      rw [jsGet_set row m v cx hm]
    · simp [hcy]

theorem placeCells_spec (piece : Piece) (x y c : Int) :
    ∀ grid : Grid, gridShape grid →
    ∃ grid1, placeCells grid piece x y c = some grid1 ∧ gridShape grid1 ∧
      ∀ cy cx, cellAt grid1 cy cx =
        if 0 ≤ cy ∧ cy < GRID_H ∧ 0 ≤ cx ∧ cx < GRID_W ∧ (cx - x, cy - y) ∈ piece
        then some (c + 1) else cellAt grid cy cx := by
  induction piece with
  | nil => intro grid hg; exact ⟨grid, rfl, hg, by simp⟩
  | cons o rest ih =>
    intro grid hg
    obtain ⟨bx, by_⟩ := o
    unfold placeCells
    by_cases hin : y + by_ ≥ 0 ∧ y + by_ < (GRID_H : Int) ∧ x + bx ≥ 0 ∧ x + bx < (GRID_W : Int)
    · simp only [hin, and_self, if_true]
      obtain ⟨g1, hset, hg1, hcell1⟩ := setCell_spec grid hg (y + by_) (x + bx) (c + 1)
        hin.1 hin.2.1 hin.2.2.1 hin.2.2.2
      obtain ⟨g2, hrest, hg2, hcell2⟩ := ih g1 hg1
      refine ⟨g2, by simp only [hset, hrest], hg2, ?_⟩
      intro cy cx
      rw [hcell2, hcell1]
      by_cases hhere : cy = y + by_ ∧ cx = x + bx
      · obtain ⟨h1, h2⟩ := hhere
        subst h1 h2
        have e : (x + bx - x, y + by_ - y) = (bx, by_) := by
          ext <;> simp
        simp [e, hin.1, hin.2.1, hin.2.2.1, hin.2.2.2]
      · have hne : ¬ ((cx - x, cy - y) = (bx, by_)) := by
          intro h
          apply hhere
          simp only [Prod.mk.injEq] at h
          omega
        simp only [hhere, if_false, List.mem_cons, hne, false_or]
    · simp only [hin, if_false]
      obtain ⟨g2, hrest, hg2, hcell2⟩ := ih grid hg
      refine ⟨g2, hrest, hg2, ?_⟩
      intro cy cx
      rw [hcell2]
      have hne : (0 ≤ cy ∧ cy < (GRID_H : Int) ∧ 0 ≤ cx ∧ cx < (GRID_W : Int)) →
          ¬ ((cx - x, cy - y) = (bx, by_)) := by
        intro hr h
        apply hin
        simp only [Prod.mk.injEq] at h
        have h1 : cx = x + bx := by omega
        have h2 : cy = y + by_ := by omega
        subst h1 h2
        exact ⟨hr.1, hr.2.1, hr.2.2.1, hr.2.2.2⟩
      by_cases hr : 0 ≤ cy ∧ cy < (GRID_H : Int) ∧ 0 ≤ cx ∧ cx < (GRID_W : Int)
      · have := hne hr
        simp only [List.mem_cons, this, false_or]
      · have h1 : ¬ (0 ≤ cy ∧ cy < (GRID_H : Int) ∧ 0 ≤ cx ∧ cx < (GRID_W : Int) ∧
            (cx - x, cy - y) ∈ (bx, by_) :: rest) := by
          rintro ⟨a, b, c, d, _⟩; exact hr ⟨a, b, c, d⟩
        have h2 : ¬ (0 ≤ cy ∧ cy < (GRID_H : Int) ∧ 0 ≤ cx ∧ cx < (GRID_W : Int) ∧
            (cx - x, cy - y) ∈ rest) := by
          rintro ⟨a, b, c, d, _⟩; exact hr ⟨a, b, c, d⟩
        rw [if_neg h1, if_neg h2]

/-! ## The scan of `clearLines` -/

theorem isFull_emptyRow : isFull emptyRow = false := by decide

theorem clearLinesLoop_scan (fuel : Nat) :
    ∀ (pre suf : Grid) (cleared : Nat),
      pre.length + pre.countP isFull + 1 ≤ fuel →
      clearLinesLoop fuel (pre ++ suf) ((pre.length : Int) - 1) cleared =
        some (List.replicate (pre.countP isFull) emptyRow
                ++ pre.filter (fun row => !isFull row) ++ suf,
              cleared + pre.countP isFull) := by
  induction fuel with
  | zero => intro pre suf cleared h; omega
  | succ fuel ih =>
    intro pre suf cleared h
    rcases List.eq_nil_or_concat pre with hnil | ⟨pre1, row, hcat⟩
    · subst hnil
      simp [clearLinesLoop]
    · subst hcat
      rw [List.concat_eq_append] at h ⊢
      have hy : ((pre1 ++ [row]).length : Int) - 1 = (pre1.length : Int) := by
        simp
      have hget : jsGet (pre1 ++ [row] ++ suf) (pre1.length : Int) = some row := by
        rw [jsGet_ofNat, List.append_assoc, List.getElem?_append_right (le_refl _)]; simp
      rw [hy]
      unfold clearLinesLoop
      rw [if_pos (by omega : (pre1.length : Int) ≥ 0), hget]
      by_cases hfull : isFull row = true
      · simp only [hfull, if_true, Int.toNat_ofNat]
        have herase : (pre1 ++ [row] ++ suf).eraseIdx pre1.length = pre1 ++ suf := by
          rw [List.append_assoc, List.eraseIdx_append_of_length_le (le_refl _)]
          simp
        rw [herase]
        have hcount : (emptyRow :: pre1).countP isFull = pre1.countP isFull := by
          simp [List.countP_cons, isFull_emptyRow]
        have hlen : ((emptyRow :: pre1).length : Int) - 1 = (pre1.length : Int) := by
          simp
        have := ih (emptyRow :: pre1) suf (cleared + 1) (by
          rw [hcount]; simp [List.countP_append, hfull] at h ⊢; omega)
        rw [hlen, hcount] at this
        rw [List.cons_append] at this
        rw [this]
        simp [List.countP_append, hfull, List.filter_append, isFull_emptyRow, List.filter_cons,
          List.replicate_succ', List.append_assoc]
        omega
      · have hfull' : isFull row = false := by simpa using hfull
        simp only [hfull', Bool.false_eq_true, if_false]
        have := ih pre1 (row :: suf) cleared (by
          simp [List.countP_append, hfull'] at h ⊢; omega)
        have e : pre1 ++ [row] ++ suf = pre1 ++ row :: suf := by simp
        rw [e, this]
        simp [List.countP_append, hfull', List.filter_append, List.filter_cons]

theorem isFull_iff (row : List Int) : isFull row = true ↔ ∀ v ∈ row, v ≠ 0 := by
  simp [isFull]

theorem countP_add_filter_not (grid : Grid) :
    (List.replicate (grid.countP isFull) emptyRow
      ++ grid.filter (fun row => !isFull row)).length = grid.length := by
  induction grid with
  | nil => simp
  | cons row rest ih =>
    simp only [List.length_append, List.length_replicate] at ih ⊢
    by_cases h : isFull row = true
    · simp [List.countP_cons, List.filter_cons, h]; omega
    · simp [List.countP_cons, List.filter_cons, h]; omega

theorem clearLinesLoop_grid (grid : Grid) (hlen : grid.length = GRID_H) (fuel : Nat)
    (hfuel : clearLinesFuel ≤ fuel) :
    clearLinesLoop fuel grid ((GRID_H : Int) - 1) 0 =
      some (List.replicate (grid.countP isFull) emptyRow
              ++ grid.filter (fun row => !isFull row), grid.countP isFull) := by
  have h := clearLinesLoop_scan fuel grid [] 0 (by
    have := List.countP_le_length isFull (l := grid)
    simp only [clearLinesFuel] at hfuel
    omega)
  rw [hlen] at h
  simpa using h

theorem clearLines_eq (s : Game) (hlen : s.grid.length = GRID_H) :
    clearLines s = some { s with
      grid := List.replicate (s.grid.countP isFull) emptyRow
                ++ s.grid.filter (fun row => !isFull row)
      score := if s.grid.countP isFull > 0
               then s.score + ((s.grid.countP isFull : Nat) : Int) * 100 else s.score } := by
  unfold clearLines
  rw [clearLinesLoop_grid s.grid hlen clearLinesFuel (le_refl _)]

/-! ## Spawning, moving and the soft-drop step -/

theorem clonePiece_eq (piece : Piece) : clonePiece piece = piece := by
  unfold clonePiece
  induction piece with
  | nil => rfl
  | cons o rest ih => simp

theorem randomPiece_of_lt (idx : Nat) (h : idx < PIECES.length) :
    ∃ piece, PIECES[idx]? = some piece ∧ randomPiece idx = some piece ∧ piece ∈ PIECES := by
  refine ⟨PIECES[idx], List.getElem?_eq_getElem h, ?_, List.getElem_mem _⟩
  simp [randomPiece, List.getElem?_eq_getElem h, clonePiece_eq]

theorem spawnPiece_queued (s : Game) (r : Rand) (p q : Piece)
    (hg : gridShape s.grid) (hcur : s.currentPiece = some p) (hnext : s.nextPiece = some q)
    (hr : r.next < PIECES.length) :
    ∃ nxt ok, PIECES[r.next]? = some nxt ∧ canPlace s.grid q 4 0 = some ok ∧
      spawnPiece s false r = some { s with
        currentPiece := some q
        pieceColorIndex := (r.color : Int)
        nextPiece := some nxt
        pieceX := 4
        pieceY := 0
        gameOver := if !ok then true else s.gameOver } := by
  obtain ⟨nxt, hn1, hn2, _⟩ := randomPiece_of_lt r.next hr
  obtain ⟨ok, hok⟩ := canPlace_total s.grid hg q 4 0
  refine ⟨nxt, ok, hn1, hok, ?_⟩
  have h4 : (((GRID_W / 2 : Nat) : Int) - 1) = 4 := by decide
  simp only [spawnPiece, hcur, hnext, hn2, h4, hok, Option.isSome_some, Bool.not_false,
    Bool.and_self, if_true]

theorem spawnPiece_first (s : Game) (r : Rand)
    (hg : gridShape s.grid) (hr : r.valid) :
    ∃ cur nxt ok, PIECES[r.piece]? = some cur ∧ PIECES[r.next]? = some nxt ∧
      canPlace s.grid cur 4 0 = some ok ∧
      spawnPiece s true r = some { s with
        currentPiece := some cur
        pieceColorIndex := (r.color : Int)
        nextPiece := some nxt
        pieceX := 4
        pieceY := 0
        gameOver := if !ok then true else s.gameOver } := by
  obtain ⟨cur, hc1, hc2, _⟩ := randomPiece_of_lt r.piece hr.1
  obtain ⟨nxt, hn1, hn2, _⟩ := randomPiece_of_lt r.next hr.2.2
  obtain ⟨ok, hok⟩ := canPlace_total s.grid hg cur 4 0
  refine ⟨cur, nxt, ok, hc1, hn1, hok, ?_⟩
  have h4 : (((GRID_W / 2 : Nat) : Int) - 1) = 4 := by decide
  simp only [spawnPiece, hc2, hn2, h4, hok, Bool.not_true, Bool.false_and, Option.map_some',
    Bool.false_eq_true, if_false]

theorem move_running (s : Game) (p : Piece) (dx dy : Int)
    (hcur : s.currentPiece = some p) (hover : s.gameOver = false) (hpaused : s.paused = false) :
    move s dx dy =
      match canPlace s.grid p (s.pieceX + dx) (s.pieceY + dy) with
      | none => none
      | some true =>
        some ({ s with pieceX := s.pieceX + dx, pieceY := s.pieceY + dy }, some true)
      | some false => some (s, some false) := by
  unfold move
  rw [hcur]
  simp only [hover, hpaused, Bool.or_self, Bool.false_eq_true, if_false]

theorem move_idle (s : Game)
    (h : s.currentPiece = none ∨ s.gameOver = true ∨ s.paused = true) (dx dy : Int) :
    move s dx dy = some (s, none) := by
  unfold move
  cases hc : s.currentPiece with
  | none => rfl
  | some p =>
    rcases h with h | h | h
    · rw [hc] at h; cases h
    · simp [h]
    · simp [h]

theorem softDropStep_idle (s : Game) (r : Rand)
    (h : s.currentPiece = none ∨ s.gameOver = true ∨ s.paused = true) :
    softDropStep s r = some s := by
  unfold softDropStep
  rcases h with h | h | h <;> simp [h]

theorem softDropStep_descend (s : Game) (r : Rand) (p : Piece)
    (hcur : s.currentPiece = some p) (hover : s.gameOver = false) (hpaused : s.paused = false)
    (hfree : canPlace s.grid p s.pieceX (s.pieceY + 1) = some true) :
    softDropStep s r = some { s with pieceY := s.pieceY + 1 } := by
  have hm := move_running s p 0 1 hcur hover hpaused
  simp only [add_zero, hfree] at hm
  simp [softDropStep, hcur, hover, hpaused, hm]

theorem softDropStep_lock (s : Game) (r : Rand) (p : Piece)
    (hcur : s.currentPiece = some p) (hover : s.gameOver = false) (hpaused : s.paused = false)
    (hblocked : canPlace s.grid p s.pieceX (s.pieceY + 1) = some false) :
    softDropStep s r =
      match placePiece s with
      | none => none
      | some s2 =>
        match clearLines s2 with
        | none => none
        | some s3 => spawnPiece s3 false r := by
  have hm := move_running s p 0 1 hcur hover hpaused
  simp only [add_zero, hblocked] at hm
  unfold softDropStep
  simp only [hcur, hover, hpaused, hm, Option.isNone_some, Bool.or_self, Bool.false_eq_true,
    if_false]
  rfl

theorem placePiece_eq (s : Game) (p : Piece) (hg : gridShape s.grid)
    (hcur : s.currentPiece = some p) :
    ∃ grid1, placeCells s.grid p s.pieceX s.pieceY s.pieceColorIndex = some grid1 ∧
      placePiece s = some { s with grid := grid1 } ∧ gridShape grid1 ∧
      ∀ cy cx, cellAt grid1 cy cx =
        if 0 ≤ cy ∧ cy < GRID_H ∧ 0 ≤ cx ∧ cx < GRID_W ∧ (cx - s.pieceX, cy - s.pieceY) ∈ p
        then some (s.pieceColorIndex + 1) else cellAt s.grid cy cx := by
  obtain ⟨g1, h1, h2, h3⟩ := placeCells_spec p s.pieceX s.pieceY s.pieceColorIndex s.grid hg
  exact ⟨g1, h1, by simp only [placePiece, hcur, h1], h2, h3⟩

theorem rotateCurrent_idle (s : Game) (hcur : s.currentPiece = none) :
    rotateCurrent s = some s := by
  simp only [rotateCurrent, hcur]

theorem rotateCurrent_active (s : Game) (p : Piece) (hcur : s.currentPiece = some p) :
    rotateCurrent s =
      match canPlace s.grid (normalized p) s.pieceX s.pieceY with
      | none => none
      | some true => some { s with currentPiece := some (normalized p) }
      | some false => some s := by
  simp only [rotateCurrent, hcur]

theorem rotateCurrent_total (s : Game) (hg : gridShape s.grid) :
    ∃ s1, rotateCurrent s = some s1 ∧ s1.grid = s.grid ∧ s1.score = s.score ∧
      s1.pieceX = s.pieceX ∧ s1.pieceY = s.pieceY ∧ s1.gameOver = s.gameOver ∧
      s1.paused = s.paused ∧ s1.nextPiece = s.nextPiece ∧
      s1.pieceColorIndex = s.pieceColorIndex ∧ s1.dropAccumulator = s.dropAccumulator ∧
      s1.lastTs = s.lastTs ∧
      (s1.currentPiece.isSome = s.currentPiece.isSome) := by
  rcases Option.eq_none_or_eq_some s.currentPiece with hc | ⟨p, hc⟩
  · exact ⟨s, rotateCurrent_idle s hc, rfl, rfl, rfl, rfl, rfl, rfl, rfl, rfl, rfl, rfl, rfl⟩
  · obtain ⟨b, hb⟩ := canPlace_total s.grid hg (normalized p) s.pieceX s.pieceY
    have h := rotateCurrent_active s p hc
    rw [hb] at h
    cases b with
    | true =>
      exact ⟨_, h, rfl, rfl, rfl, rfl, rfl, rfl, rfl, rfl, rfl, rfl, by rw [hc]; rfl⟩
    | false =>
      exact ⟨s, h, rfl, rfl, rfl, rfl, rfl, rfl, rfl, rfl, rfl, rfl, rfl⟩

theorem move_total (s : Game) (hg : gridShape s.grid) (dx dy : Int) :
    ∃ s1 ret, move s dx dy = some (s1, ret) ∧ s1.grid = s.grid ∧ s1.score = s.score ∧
      s1.gameOver = s.gameOver ∧ s1.paused = s.paused ∧ s1.currentPiece = s.currentPiece ∧
      s1.nextPiece = s.nextPiece ∧ s1.pieceColorIndex = s.pieceColorIndex := by
  rcases Option.eq_none_or_eq_some s.currentPiece with hc | ⟨p, hc⟩
  · exact ⟨s, none, move_idle s (Or.inl hc) dx dy, rfl, rfl, rfl, rfl, rfl, rfl, rfl⟩
  · by_cases hrun : s.gameOver = false ∧ s.paused = false
    · obtain ⟨b, hb⟩ := canPlace_total s.grid hg p (s.pieceX + dx) (s.pieceY + dy)
      have hm := move_running s p dx dy hc hrun.1 hrun.2
      rw [hb] at hm
      cases b with
      | true => exact ⟨_, _, hm, rfl, rfl, rfl, rfl, rfl, rfl, rfl⟩
      | false => exact ⟨_, _, hm, rfl, rfl, rfl, rfl, rfl, rfl, rfl⟩
    · have : s.gameOver = true ∨ s.paused = true := by
        cases h1 : s.gameOver <;> cases h2 : s.paused <;> simp_all
      exact ⟨s, none, move_idle s (Or.inr this) dx dy, rfl, rfl, rfl, rfl, rfl, rfl, rfl⟩

/-- The soft-drop step on a state whose piece is blocked: lock, clear, spawn. -/
theorem softDropStep_lock_eq (s : Game) (r : Rand) (p q : Piece)
    (hg : gridShape s.grid)
    (hcur : s.currentPiece = some p) (hnext : s.nextPiece = some q)
    (hover : s.gameOver = false) (hpaused : s.paused = false)
    (hr : r.next < PIECES.length)
    (hblocked : canPlace s.grid p s.pieceX (s.pieceY + 1) = some false) :
    ∃ s2 s3 nxt ok, placePiece s = some s2 ∧ clearLines s2 = some s3 ∧
      gridShape s2.grid ∧ gridShape s3.grid ∧
      s3.grid = List.replicate (s2.grid.countP isFull) emptyRow
                  ++ s2.grid.filter (fun row => !isFull row) ∧
      s3.score = s.score + 100 * ((s2.grid.countP isFull : Nat) : Int) ∧
      PIECES[r.next]? = some nxt ∧
      canPlace s3.grid q 4 0 = some ok ∧
      softDropStep s r = some { s3 with
        currentPiece := some q
        pieceColorIndex := (r.color : Int)
        nextPiece := some nxt
        pieceX := 4
        pieceY := 0
        gameOver := !ok } := by
  obtain ⟨g1, _, hplace, hg1, _⟩ := placePiece_eq s p hg hcur
  have hclear := clearLines_eq { s with grid := g1 } hg1.1
  have hlen := countP_add_filter_not g1
  have hshape3 : gridShape (List.replicate (g1.countP isFull) emptyRow
      ++ g1.filter (fun row => !isFull row)) := by
    refine ⟨by rw [hlen]; exact hg1.1, ?_⟩
    intro row hrow
    rcases List.mem_append.1 hrow with h | h
    · rw [(List.mem_replicate.1 h).2]; rfl
    · exact hg1.2 row (List.mem_filter.1 h).1
  obtain ⟨nxt, ok, hn, hok, hspawn⟩ := spawnPiece_queued
    { s with
      grid := List.replicate (g1.countP isFull) emptyRow ++ g1.filter (fun row => !isFull row)
      score := if g1.countP isFull > 0
               then s.score + ((g1.countP isFull : Nat) : Int) * 100 else s.score }
    r p q hshape3 hcur hnext hr
  refine ⟨_, _, nxt, ok, hplace, hclear, hg1, hshape3, rfl, ?_, hn, hok, ?_⟩
  · show (if g1.countP isFull > 0 then s.score + ((g1.countP isFull : Nat) : Int) * 100
      else s.score) = _
    dsimp only
    split <;> omega
  · rw [softDropStep_lock s r p hcur hover hpaused hblocked]
    simp only [hplace, hclear]
    rw [hspawn]
    simp only [hover]
    cases ok <;> rfl

/-! ## Rotation: the candidate `normalized` -/

/-- One step of the minimum loop on one coordinate. -/
theorem minStep_some (xs : List Int) :
    ∀ a : Int, ∃ m, xs.foldl (fun m x => if ltInf x m then some x else m) (some a) = some m ∧
      m ≤ a ∧ (∀ x ∈ xs, m ≤ x) ∧ (m = a ∨ m ∈ xs) := by
  induction xs with
  | nil => intro a; exact ⟨a, rfl, le_refl _, by simp, Or.inl rfl⟩
  | cons x rest ih =>
    intro a
    simp only [List.foldl_cons]
    by_cases hx : x < a
    · have hl : ltInf x (some a) = true := by simp [ltInf, hx]
      obtain ⟨m, h1, h2, h3, h4⟩ := ih x
      refine ⟨m, by rw [hl, if_pos rfl]; exact h1, by omega, ?_, ?_⟩
      · intro z hz
        rcases List.mem_cons.1 hz with h | h
        · omega
        · exact h3 z h
      · rcases h4 with h | h
        · exact Or.inr (by rw [h]; exact List.mem_cons_self _ _)
        · exact Or.inr (List.mem_cons_of_mem _ h)
    · have hl : ltInf x (some a) = false := by simp [ltInf, hx]
      obtain ⟨m, h1, h2, h3, h4⟩ := ih a
      refine ⟨m, by rw [hl, if_neg (by simp)]; exact h1, h2, ?_, ?_⟩
      · intro z hz
        rcases List.mem_cons.1 hz with h | h
        · omega
        · exact h3 z h
      · rcases h4 with h | h
        · exact Or.inl h
        · exact Or.inr (List.mem_cons_of_mem _ h)

theorem minStep_none (xs : List Int) (hne : xs ≠ []) :
    ∃ m, xs.foldl (fun m x => if ltInf x m then some x else m) none = some m ∧
      (∀ x ∈ xs, m ≤ x) ∧ m ∈ xs := by
  cases xs with
  | nil => exact absurd rfl hne
  | cons x rest =>
    obtain ⟨m, h1, h2, h3, h4⟩ := minStep_some rest x
    have hl : ltInf x none = true := rfl
    refine ⟨m, by rw [List.foldl_cons, hl, if_pos rfl]; exact h1, ?_, ?_⟩
    · intro z hz
      rcases List.mem_cons.1 hz with h | h
      · omega
      · exact h3 z h
    · rcases h4 with h | h
      · rw [h]; exact List.mem_cons_self _ _
      · exact List.mem_cons_of_mem _ h

theorem minXY_eq (piece : Piece) :
    ∀ acc : Option Int × Option Int,
      piece.foldl
        (fun (m : Option Int × Option Int) (c : Int × Int) =>
          (if ltInf c.1 m.1 then some c.1 else m.1, if ltInf c.2 m.2 then some c.2 else m.2))
        acc =
      ((piece.map Prod.fst).foldl (fun m x => if ltInf x m then some x else m) acc.1,
       (piece.map Prod.snd).foldl (fun m x => if ltInf x m then some x else m) acc.2) := by
  induction piece with
  | nil => intro acc; rfl
  | cons c rest ih => intro acc; simp only [List.foldl_cons, List.map_cons, ih]

theorem minXY_spec (piece : Piece) (hne : piece ≠ []) :
    ∃ minX minY, minXY piece = (some minX, some minY) ∧
      (∀ c ∈ piece, minX ≤ c.1) ∧ (∃ c ∈ piece, c.1 = minX) ∧
      (∀ c ∈ piece, minY ≤ c.2) ∧ (∃ c ∈ piece, c.2 = minY) := by
  obtain ⟨mx, hx1, hx2, hx3⟩ := minStep_none (piece.map Prod.fst) (by simpa using hne)
  obtain ⟨my, hy1, hy2, hy3⟩ := minStep_none (piece.map Prod.snd) (by simpa using hne)
  refine ⟨mx, my, ?_, ?_, ?_, ?_, ?_⟩
  · unfold minXY; rw [minXY_eq, hx1, hy1]
  · intro c hc; exact hx2 c.1 (List.mem_map_of_mem _ hc)
  · obtain ⟨c, hc, h⟩ := List.mem_map.1 hx3; exact ⟨c, hc, h⟩
  · intro c hc; exact hy2 c.2 (List.mem_map_of_mem _ hc)
  · obtain ⟨c, hc, h⟩ := List.mem_map.1 hy3; exact ⟨c, hc, h⟩

theorem rotated_eq (piece : Piece) : rotated piece = piece.map (fun c => (c.2, -c.1)) := by
  unfold rotated
  apply List.map_congr_left
  intro c _; rfl

theorem normalized_nil : normalized [] = [] := by decide

theorem normalized_spec (piece : Piece) (hne : piece ≠ []) :
    ∃ minX minY,
      (∀ c ∈ piece, minX ≤ c.2) ∧ (∃ c ∈ piece, c.2 = minX) ∧
      (∀ c ∈ piece, minY ≤ -c.1) ∧ (∃ c ∈ piece, -c.1 = minY) ∧
      normalized piece = piece.map (fun c => (c.2 - minX, -c.1 - minY)) := by
  have hne2 : rotated piece ≠ [] := by rw [rotated_eq]; simpa using hne
  obtain ⟨mx, my, hmin, h1, h2, h3, h4⟩ := minXY_spec (rotated piece) hne2
  rw [rotated_eq] at h1 h2 h3 h4
  refine ⟨mx, my, ?_, ?_, ?_, ?_, ?_⟩
  · intro c hc; exact h1 _ (List.mem_map_of_mem _ hc)
  · obtain ⟨c, hc, h⟩ := h2
    obtain ⟨d, hd, rfl⟩ := List.mem_map.1 hc
    exact ⟨d, hd, h⟩
  · intro c hc; exact h3 _ (List.mem_map_of_mem _ hc)
  · obtain ⟨c, hc, h⟩ := h4
    obtain ⟨d, hd, rfl⟩ := List.mem_map.1 hc
    exact ⟨d, hd, h⟩
  · unfold normalized
    rw [hmin]
    simp only [rotated_eq, List.map_map]
    apply List.map_congr_left
    intro c _; rfl

theorem normalized_origin (piece : Piece) (hne : piece ≠ []) :
    (∀ c ∈ normalized piece, 0 ≤ c.1 ∧ 0 ≤ c.2) ∧
    (∃ c ∈ normalized piece, c.1 = 0) ∧ (∃ c ∈ normalized piece, c.2 = 0) := by
  obtain ⟨mx, my, h1, ⟨cx, hcx, hx⟩, h3, ⟨cy, hcy, hy⟩, heq⟩ := normalized_spec piece hne
  rw [heq]
  refine ⟨?_, ?_, ?_⟩
  · intro c hc
    obtain ⟨d, hd, rfl⟩ := List.mem_map.1 hc
    have := h1 d hd
    have := h3 d hd
    constructor <;> simp only <;> omega
  · exact ⟨_, List.mem_map_of_mem _ hcx, by simp only; omega⟩
  · exact ⟨_, List.mem_map_of_mem _ hcy, by simp only; omega⟩

theorem softDropStep_running (s : Game) (r : Rand) (hg : gridShape s.grid)
    (hnext : s.currentPiece.isSome = true → s.nextPiece.isSome = true) (hr : r.valid) :
    ∀ p, s.currentPiece = some p → s.paused = false → s.gameOver = false →
      (canPlace s.grid p s.pieceX (s.pieceY + 1) = some true ∨
        canPlace s.grid p s.pieceX (s.pieceY + 1) = some false) ∧
      (canPlace s.grid p s.pieceX (s.pieceY + 1) = some true →
        softDropStep s r = some { s with pieceY := s.pieceY + 1 }) ∧
      (canPlace s.grid p s.pieceX (s.pieceY + 1) = some false →
        ∃ s2 s1, placePiece s = some s2 ∧ softDropStep s r = some s1 ∧
          s1.grid = List.replicate (s2.grid.countP isFull) (List.replicate 10 0)
                      ++ s2.grid.filter (fun row => !isFull row) ∧
          s1.score = s.score + 100 * ((s2.grid.countP isFull : Nat) : Int)) := by
  intro p hcur hpaused hover
  refine ⟨?_, ?_, ?_⟩
  · obtain ⟨b, hb⟩ := canPlace_total s.grid hg p s.pieceX (s.pieceY + 1)
    cases b
    · exact Or.inr hb
    · exact Or.inl hb
  · exact softDropStep_descend s r p hcur hover hpaused
  · intro hblocked
    obtain ⟨q, hq⟩ := Option.isSome_iff_exists.1 (hnext (by rw [hcur]; rfl))
    obtain ⟨s2, s3, nxt, ok, h1, _, _, _, h5, h6, _, _, h9⟩ :=
      softDropStep_lock_eq s r p q hg hcur hq hover hpaused hr.2.2 hblocked
    exact ⟨s2, _, h1, h9, h5, h6⟩

theorem softDropStep_total (s : Game) (r : Rand) (hg : gridShape s.grid)
    (hnext : s.currentPiece.isSome = true → s.nextPiece.isSome = true) (hr : r.valid) :
    ∃ s1, softDropStep s r = some s1 ∧ s.score ≤ s1.score := by
  rcases Option.eq_none_or_eq_some s.currentPiece with hc | ⟨p, hc⟩
  · exact ⟨s, softDropStep_idle s r (Or.inl hc), le_refl _⟩
  · by_cases hidle : s.gameOver = true ∨ s.paused = true
    · exact ⟨s, softDropStep_idle s r (Or.inr hidle), le_refl _⟩
    · have hover : s.gameOver = false := by
        cases h : s.gameOver
        · rfl
        · exact absurd (Or.inl h) hidle
      have hpaused : s.paused = false := by
        cases h : s.paused
        · rfl
        · exact absurd (Or.inr h) hidle
      obtain ⟨hb, hdesc, hlock⟩ := softDropStep_running s r hg hnext hr p hc hpaused hover
      rcases hb with hb | hb
      · exact ⟨_, hdesc hb, le_refl _⟩
      · obtain ⟨s2, s1, _, h2, _, h4⟩ := hlock hb
        refine ⟨s1, h2, ?_⟩
        rw [h4]
        have : (0 : Int) ≤ ((s2.grid.countP isFull : Nat) : Int) := Int.ofNat_nonneg _
        omega

/-! ## `reset` and the invariant of reachable states -/

theorem emptyGrid_shape : gridShape emptyGrid := by decide

theorem emptyGrid_valid : gridValid emptyGrid := by decide

theorem templates_spawn : ∀ t ∈ PIECES, canPlace emptyGrid t 4 0 = some true := by decide

theorem mem_of_getElem? {α : Type} (xs : List α) (i : Nat) (a : α) (h : xs[i]? = some a) :
    a ∈ xs := by
  obtain ⟨hi, rfl⟩ := List.getElem?_eq_some.1 h
  exact List.getElem_mem _

theorem reset_eq (s0 : Game) (r : Rand) (hr : r.valid) :
    ∃ cur nxt, PIECES[r.piece]? = some cur ∧ PIECES[r.next]? = some nxt ∧
      reset s0 r = some
        { grid := List.replicate 20 (List.replicate 10 0)
          currentPiece := some cur
          nextPiece := some nxt
          pieceX := 4
          pieceY := 0
          pieceColorIndex := (r.color : Int)
          score := 0
          gameOver := false
          paused := false
          dropAccumulator := 0
          lastTs := 0 } := by
  obtain ⟨cur, nxt, ok, h1, h2, h3, h4⟩ := spawnPiece_first
    { s0 with
      grid := List.replicate GRID_H (List.replicate GRID_W 0)
      score := 0
      gameOver := false
      paused := false
      dropAccumulator := 0
      lastTs := 0
      currentPiece := none
      nextPiece := none } r emptyGrid_shape hr
  have hok : ok = true := by
    have := templates_spawn cur (mem_of_getElem? _ _ _ h1)
    have h3' : canPlace emptyGrid cur 4 0 = some ok := h3
    rw [this] at h3'
    exact (Option.some.inj h3').symm
  refine ⟨cur, nxt, h1, h2, ?_⟩
  unfold reset
  rw [h4, hok]
  rfl

theorem cellValid_color (c : Int) (h0 : 0 ≤ c) (h1 : c < (COLORS.length : Int)) :
    cellValid (c + 1) := by
  right; constructor <;> omega

theorem setCell_valid (grid grid1 : Grid) (gy gx v : Int)
    (hcells : ∀ row ∈ grid, ∀ w ∈ row, cellValid w) (hv : cellValid v)
    (hset : setCell grid gy gx v = some grid1) :
    ∀ row ∈ grid1, ∀ w ∈ row, cellValid w := by
  unfold setCell at hset
  cases hrow : jsGet grid gy with
  | none => rw [hrow] at hset; cases hset
  | some row0 =>
    rw [hrow] at hset
    simp only at hset
    split at hset
    · cases hset
      have hmem0 : row0 ∈ grid := by
        unfold jsGet at hrow
        split at hrow
        · cases hrow
        · exact mem_of_getElem? _ _ _ hrow
      intro row hr w hw
      rcases List.mem_or_eq_of_mem_set hr with h | h
      · exact hcells row h w hw
      · rw [h] at hw
        rcases List.mem_or_eq_of_mem_set hw with h2 | h2
        · exact hcells row0 hmem0 w h2
        · rw [h2]; exact hv
    · cases hset

theorem placeCells_valid (piece : Piece) (x y c : Int) (hv : cellValid (c + 1)) :
    ∀ grid grid1 : Grid, (∀ row ∈ grid, ∀ w ∈ row, cellValid w) →
      placeCells grid piece x y c = some grid1 →
      ∀ row ∈ grid1, ∀ w ∈ row, cellValid w := by
  induction piece with
  | nil =>
    intro grid grid1 hcells h
    simp only [placeCells, Option.some.injEq] at h
    rw [← h]; exact hcells
  | cons o rest ih =>
    intro grid grid1 hcells h
    obtain ⟨bx, by_⟩ := o
    unfold placeCells at h
    simp only at h
    split at h
    · cases hset : setCell grid (y + by_) (x + bx) (c + 1) with
      | none => rw [hset] at h; cases h
      | some g1 =>
        rw [hset] at h
        exact ih g1 grid1 (setCell_valid grid g1 _ _ _ hcells hv hset) h
    · exact ih grid grid1 hcells h

theorem cleared_valid (grid : Grid) (hgv : gridValid grid) :
    gridValid (List.replicate (grid.countP isFull) emptyRow
      ++ grid.filter (fun row => !isFull row)) := by
  refine ⟨⟨by rw [countP_add_filter_not]; exact hgv.1.1, ?_⟩, ?_⟩
  · intro row hrow
    rcases List.mem_append.1 hrow with h | h
    · rw [(List.mem_replicate.1 h).2]; rfl
    · exact hgv.1.2 row (List.mem_filter.1 h).1
  · intro row hrow w hw
    rcases List.mem_append.1 hrow with h | h
    · rw [(List.mem_replicate.1 h).2] at hw
      exact Or.inl (List.mem_replicate.1 hw).2
    · exact hgv.2 row (List.mem_filter.1 h).1 w hw

/-- The invariant carried along every run. -/
theorem reachable_inv (s : Game) (h : Reachable s) :
    gridValid s.grid ∧ s.currentPiece.isSome = true ∧ s.nextPiece.isSome = true ∧
      0 ≤ s.pieceColorIndex ∧ s.pieceColorIndex < (COLORS.length : Int) := by
  induction h with
  | reset s0 s r hr hreset =>
    obtain ⟨cur, nxt, _, _, heq⟩ := reset_eq s0 r hr
    rw [heq] at hreset
    cases hreset
    refine ⟨emptyGrid_valid, rfl, rfl, Int.ofNat_nonneg _, ?_⟩
    exact Int.ofNat_lt.2 hr.2.1
  | softDropStep s s1 r _ hr hstep ih =>
    obtain ⟨hgv, hc, hn, hc0, hc1⟩ := ih
    obtain ⟨p, hp⟩ := Option.isSome_iff_exists.1 hc
    obtain ⟨q, hq⟩ := Option.isSome_iff_exists.1 hn
    by_cases hidle : s.gameOver = true ∨ s.paused = true
    · rw [softDropStep_idle s r (Or.inr hidle)] at hstep
      cases hstep
      exact ⟨hgv, hc, hn, hc0, hc1⟩
    · have hover : s.gameOver = false := by
        cases h : s.gameOver
        · rfl
        · exact absurd (Or.inl h) hidle
      have hpaused : s.paused = false := by
        cases h : s.paused
        · rfl
        · exact absurd (Or.inr h) hidle
      obtain ⟨b, hb⟩ := canPlace_total s.grid hgv.1 p s.pieceX (s.pieceY + 1)
      cases b with
      | true =>
        rw [softDropStep_descend s r p hp hover hpaused hb] at hstep
        cases hstep
        exact ⟨hgv, hc, hn, hc0, hc1⟩
      | false =>
        obtain ⟨s2, s3, nxt, ok, h1, _, hg2, _, h5, _, _, _, h9⟩ :=
          softDropStep_lock_eq s r p q hgv.1 hp hq hover hpaused hr.2.2 hb
        rw [h9] at hstep
        cases hstep
        obtain ⟨g1, hcells, hplace, _, _⟩ := placePiece_eq s p hgv.1 hp
        rw [hplace] at h1
        cases h1
        have hv2 : gridValid g1 :=
          ⟨hg2, placeCells_valid p _ _ _ (cellValid_color _ hc0 hc1) s.grid g1 hgv.2 hcells⟩
        refine ⟨?_, rfl, rfl, Int.ofNat_nonneg _, Int.ofNat_lt.2 hr.2.1⟩
        show gridValid s3.grid
        rw [h5]
        exact cleared_valid g1 hv2
  | move s s1 dx dy ret _ hmove ih =>
    obtain ⟨hgv, hc, hn, hc0, hc1⟩ := ih
    obtain ⟨s1', ret', h1, h2, _, _, _, h6, h7, h8⟩ := move_total s hgv.1 dx dy
    rw [h1] at hmove
    cases hmove
    exact ⟨by rw [h2]; exact hgv, by rw [h6]; exact hc, by rw [h7]; exact hn,
      by rw [h8]; exact hc0, by rw [h8]; exact hc1⟩
  | rotateCurrent s s1 _ hrot ih =>
    obtain ⟨hgv, hc, hn, hc0, hc1⟩ := ih
    obtain ⟨s1', h1, h2, _, _, _, _, _, h8, h9, _, _, h12⟩ := rotateCurrent_total s hgv.1
    rw [h1] at hrot
    cases hrot
    exact ⟨by rw [h2]; exact hgv, by rw [h12]; exact hc, by rw [h8]; exact hn,
      by rw [h9]; exact hc0, by rw [h9]; exact hc1⟩
  | togglePause s _ ih =>
    unfold togglePause
    split
    · exact ih
    · exact ih

/-! ## The gravity clock `frame` -/

theorem softDropStep_keeps (s : Game) (r : Rand) (hg : gridShape s.grid)
    (hnext : s.currentPiece.isSome = true → s.nextPiece.isSome = true) (hr : r.valid) :
    ∃ s1, softDropStep s r = some s1 ∧ gridShape s1.grid ∧
      (s1.currentPiece.isSome = true → s1.nextPiece.isSome = true) ∧
      s1.dropAccumulator = s.dropAccumulator ∧ s1.paused = s.paused ∧
      s1.lastTs = s.lastTs := by
  rcases Option.eq_none_or_eq_some s.currentPiece with hc | ⟨p, hc⟩
  · exact ⟨s, softDropStep_idle s r (Or.inl hc), hg, hnext, rfl, rfl, rfl⟩
  · by_cases hidle : s.gameOver = true ∨ s.paused = true
    · exact ⟨s, softDropStep_idle s r (Or.inr hidle), hg, hnext, rfl, rfl, rfl⟩
    · have hover : s.gameOver = false := by
        cases h : s.gameOver
        · rfl
        · exact absurd (Or.inl h) hidle
      have hpaused : s.paused = false := by
        cases h : s.paused
        · rfl
        · exact absurd (Or.inr h) hidle
      obtain ⟨b, hb⟩ := canPlace_total s.grid hg p s.pieceX (s.pieceY + 1)
      cases b with
      | true =>
        exact ⟨_, softDropStep_descend s r p hc hover hpaused hb, hg, hnext, rfl, rfl, rfl⟩
      | false =>
        obtain ⟨q, hq⟩ := Option.isSome_iff_exists.1 (hnext (by rw [hc]; rfl))
        obtain ⟨s2, s3, nxt, ok, h1, h2, hg2, hg3, _, _, _, _, h9⟩ :=
          softDropStep_lock_eq s r p q hg hc hq hover hpaused hr.2.2 hb
        obtain ⟨g1, _, hplace, _, _⟩ := placePiece_eq s p hg hc
        rw [hplace] at h1
        cases h1
        rw [clearLines_eq _ hg2.1] at h2
        cases h2
        exact ⟨_, h9, hg3, fun _ => rfl, rfl, rfl, rfl⟩

theorem DROP_MS_eq : DROP_MS = 500 := rfl

theorem frameLoop_mono (rands : Nat → Rand) (fuel : Nat) :
    ∀ (s : Game) (calls : List Game) (res : Game × List Game) (k : Nat),
      frameLoop fuel s rands calls = some res →
      frameLoop (fuel + k) s rands calls = some res := by
  induction fuel with
  | zero => intro s calls res k h; simp [frameLoop] at h
  | succ fuel ih =>
    intro s calls res k h
    rw [Nat.add_right_comm]
    unfold frameLoop at h ⊢
    split
    · rename_i hge
      rw [if_pos hge] at h
      simp only at h ⊢
      cases hstep : softDropStep { s with dropAccumulator := s.dropAccumulator - DROP_MS }
          (rands calls.length) with
      | none => rw [hstep] at h; cases h
      | some s2 =>
        rw [hstep] at h
        exact ih s2 _ res k h
    · rename_i hge
      rw [if_neg hge] at h
      exact h

theorem frameLoop_spec (rands : Nat → Rand) (hr : ∀ i, (rands i).valid) (fuel : Nat) :
    ∀ (s : Game) (calls : List Game), gridShape s.grid →
      (s.currentPiece.isSome = true → s.nextPiece.isSome = true) →
      frameFuel s.dropAccumulator ≤ fuel →
      ∃ s1 made, frameLoop fuel s rands calls = some (s1, calls ++ made) ∧
        made.length = (s.dropAccumulator / 500).toNat ∧
        s1.dropAccumulator = s.dropAccumulator - 500 * (made.length : Int) ∧
        s1.dropAccumulator < 500 ∧
        s1.paused = s.paused ∧ s1.lastTs = s.lastTs ∧
        (∀ c ∈ made, c.paused = s.paused) ∧
        (∀ c, made.head? = some c → c.gameOver = s.gameOver) := by
  induction fuel with
  | zero => intro s calls _ _ h; simp [frameFuel] at h
  | succ fuel ih =>
    intro s calls hg hnext hfuel
    unfold frameLoop
    by_cases hge : s.dropAccumulator ≥ DROP_MS
    · rw [if_pos hge]
      simp only
      rw [DROP_MS_eq] at hge ⊢
      obtain ⟨s2, hstep, hg2, hnext2, hacc, hp, hts⟩ :=
        softDropStep_keeps { s with dropAccumulator := s.dropAccumulator - 500 }
          (rands calls.length) hg hnext (hr _)
      rw [hstep]
      simp only at hacc hp hts
      have hfuel2 : frameFuel s2.dropAccumulator ≤ fuel := by
        rw [hacc]
        simp only [frameFuel, DROP_MS_eq] at hfuel ⊢
        omega
      obtain ⟨s1, made, h1, h2, h3, h4, h5, h6, h7, _⟩ :=
        ih s2 (calls ++ [{ s with dropAccumulator := s.dropAccumulator - 500 }])
          hg2 hnext2 hfuel2
      refine ⟨s1, { s with dropAccumulator := s.dropAccumulator - 500 } :: made, ?_, ?_, ?_,
        h4, ?_, ?_, ?_, ?_⟩
      · dsimp only
        rw [h1]; simp
      · rw [List.length_cons, h2, hacc]; omega
      · rw [h3, hacc, List.length_cons]; push_cast; omega
      · rw [h5, hp]
      · rw [h6, hts]
      · intro c hc
        rcases List.mem_cons.1 hc with h | h
        · rw [h]
        · rw [h7 c h, hp]
      · intro c hc
        simp only [List.head?_cons, Option.some.injEq] at hc
        rw [← hc]
    · rw [if_neg hge]
      rw [DROP_MS_eq] at hge
      refine ⟨s, [], by simp, ?_, by simp, by omega, rfl, rfl, by simp, by simp⟩
      simp only [List.length_nil]
      omega

theorem frame_running (s : Game) (ts : Int) (rands : Nat → Rand)
    (hpaused : s.paused = false) (hover : s.gameOver = false) :
    frame s ts rands =
      frameLoop (frameFuel (s.dropAccumulator + dt s ts))
        { s with lastTs := ts, dropAccumulator := s.dropAccumulator + dt s ts } rands [] := by
  simp [frame, hpaused, hover]

theorem frame_idle (s : Game) (ts : Int) (rands : Nat → Rand)
    (h : s.paused = true ∨ s.gameOver = true) :
    frame s ts rands = some ({ s with lastTs := ts }, []) := by
  rcases h with h | h <;> simp [frame, h]

/-! ## The input layer and repeated rotation -/

theorem keyArrowUp_idle (s : Game) (h : s.paused = true ∨ s.gameOver = true) :
    keyArrowUp s = some s := by
  rcases h with h | h <;> simp [keyArrowUp, h]

theorem doAction_idle (action : Game → Option Game) (s : Game)
    (h : s.paused = true ∨ s.gameOver = true) :
    doAction action s = some s := by
  unfold doAction
  rcases h with h | h
  · simp [h]
  · simp [h]

theorem rotateCurrent_cases (s s1 : Game) (h : rotateCurrent s = some s1) :
    s1 = s ∨ ∃ p, s.currentPiece = some p ∧
      s1 = { s with currentPiece := some (normalized p) } := by
  rcases Option.eq_none_or_eq_some s.currentPiece with hc | ⟨p, hc⟩
  · rw [rotateCurrent_idle s hc] at h
    exact Or.inl (Option.some.inj h).symm
  · rw [rotateCurrent_active s p hc] at h
    split at h
    · cases h
    · exact Or.inr ⟨p, hc, (Option.some.inj h).symm⟩
    · exact Or.inl (Option.some.inj h).symm

theorem iterate_mod_four {α : Type} (f : α → α) (x : α) (h : f^[4] x = x) :
    ∀ n, f^[n] x = f^[n % 4] x := by
  intro n
  induction n using Nat.strong_induction_on with
  | _ n ih =>
    by_cases hn : n < 4
    · rw [Nat.mod_eq_of_lt hn]
    · obtain ⟨m, rfl⟩ := Nat.exists_eq_add_of_le (not_lt.1 hn)
      rw [Nat.add_comm 4 m, Function.iterate_add_apply, h, ih m (by omega)]
      congr 1
      omega

theorem mod_four_cases (n : Nat) : n % 4 = 0 ∨ n % 4 = 1 ∨ n % 4 = 2 ∨ n % 4 = 3 := by
  omega

/-! ## Invariants of play -/

theorem reachableInput_reachable (s : Game) (h : ReachableInput s) : Reachable s := by
  induction h with
  | reset s0 s r hr hreset => exact Reachable.reset s0 s r hr hreset
  | softDropStep s s1 r _ hr hstep ih => exact Reachable.softDropStep s s1 r ih hr hstep
  | moveLeft s s1 ret _ hmove ih => exact Reachable.move s s1 (-1) 0 ret ih hmove
  | moveRight s s1 ret _ hmove ih => exact Reachable.move s s1 1 0 ret ih hmove
  | moveDown s s1 ret _ hmove ih => exact Reachable.move s s1 0 1 ret ih hmove
  | rotateCurrent s s1 _ hrot ih => exact Reachable.rotateCurrent s s1 ih hrot
  | togglePause s _ ih => exact Reachable.togglePause s ih

theorem templates_cells :
    ∀ t ∈ PIECES, t.length = 4 ∧ ∀ c ∈ t, (0 : Int) ≤ c.1 ∧ (0 : Int) ≤ c.2 := by
  decide

theorem normalized_length (piece : Piece) : (normalized piece).length = piece.length := by
  by_cases hne : piece = []
  · rw [hne]; rfl
  · obtain ⟨_, _, _, _, _, _, heq⟩ := normalized_spec piece hne
    rw [heq, List.length_map]

/-- The position of the active piece is legal: four cells, offsets from `0`, the
anchor row not above the board, and `canPlace` accepts the position. -/
theorem legal_move (s s1 : Game) (dx dy : Int) (ret : Option Bool) (hdy : 0 ≤ dy)
    (hmove : move s dx dy = some (s1, ret))
    (hq : ∃ q, s.nextPiece = some q ∧ q ∈ PIECES)
    (hl : s.gameOver = false → ∃ p, s.currentPiece = some p ∧ p.length = 4 ∧
      (∀ c ∈ p, 0 ≤ c.1 ∧ 0 ≤ c.2) ∧ 0 ≤ s.pieceY ∧
      canPlace s.grid p s.pieceX s.pieceY = some true) :
    (∃ q, s1.nextPiece = some q ∧ q ∈ PIECES) ∧
    (s1.gameOver = false → ∃ p, s1.currentPiece = some p ∧ p.length = 4 ∧
      (∀ c ∈ p, 0 ≤ c.1 ∧ 0 ≤ c.2) ∧ 0 ≤ s1.pieceY ∧
      canPlace s1.grid p s1.pieceX s1.pieceY = some true) := by
  by_cases hidle : s.currentPiece = none ∨ s.gameOver = true ∨ s.paused = true
  · rw [move_idle s hidle dx dy] at hmove
    cases hmove
    exact ⟨hq, hl⟩
  · have hover : s.gameOver = false := by
      cases h : s.gameOver
      · rfl
      · exact absurd (Or.inr (Or.inl h)) hidle
    have hpaused : s.paused = false := by
      cases h : s.paused
      · rfl
      · exact absurd (Or.inr (Or.inr h)) hidle
    obtain ⟨p, hp, h4, hoff, hy, _⟩ := hl hover
    rw [move_running s p dx dy hp hover hpaused] at hmove
    split at hmove
    · cases hmove
    · rename_i hok
      cases hmove
      refine ⟨hq, fun _ => ⟨p, hp, h4, hoff, ?_, hok⟩⟩
      show 0 ≤ s.pieceY + dy
      omega
    · cases hmove
      exact ⟨hq, hl⟩

theorem reachableInput_legal (s : Game) (h : ReachableInput s) :
    (∃ q, s.nextPiece = some q ∧ q ∈ PIECES) ∧
    (s.gameOver = false → ∃ p, s.currentPiece = some p ∧ p.length = 4 ∧
      (∀ c ∈ p, 0 ≤ c.1 ∧ 0 ≤ c.2) ∧ 0 ≤ s.pieceY ∧
      canPlace s.grid p s.pieceX s.pieceY = some true) := by
  induction h with
  | reset s0 s r hr hreset =>
    obtain ⟨cur, nxt, hc, hn, heq⟩ := reset_eq s0 r hr
    rw [heq] at hreset
    cases hreset
    have hcm := mem_of_getElem? _ _ _ hc
    refine ⟨⟨nxt, rfl, mem_of_getElem? _ _ _ hn⟩, fun _ => ⟨cur, rfl, (templates_cells cur hcm).1,
      (templates_cells cur hcm).2, le_refl _, templates_spawn cur hcm⟩⟩
  | softDropStep s s1 r hreach hr hstep ih =>
    obtain ⟨hgv, _, _, _, _⟩ := reachable_inv s (reachableInput_reachable s hreach)
    obtain ⟨⟨q, hq, hqm⟩, hl⟩ := ih
    by_cases hidle : s.gameOver = true ∨ s.paused = true
    · rw [softDropStep_idle s r (Or.inr hidle)] at hstep
      cases hstep
      exact ⟨⟨q, hq, hqm⟩, hl⟩
    · have hover : s.gameOver = false := by
        cases h : s.gameOver
        · rfl
        · exact absurd (Or.inl h) hidle
      have hpaused : s.paused = false := by
        cases h : s.paused
        · rfl
        · exact absurd (Or.inr h) hidle
      obtain ⟨p, hp, h4, hoff, hy, _⟩ := hl hover
      obtain ⟨b, hb⟩ := canPlace_total s.grid hgv.1 p s.pieceX (s.pieceY + 1)
      cases b with
      | true =>
        rw [softDropStep_descend s r p hp hover hpaused hb] at hstep
        cases hstep
        refine ⟨⟨q, hq, hqm⟩, fun _ => ⟨p, hp, h4, hoff, ?_, hb⟩⟩
        show 0 ≤ s.pieceY + 1
        omega
      | false =>
        obtain ⟨s2, s3, nxt, ok, _, _, _, _, _, _, hn, hok, h9⟩ :=
          softDropStep_lock_eq s r p q hgv.1 hp hq hover hpaused hr.2.2 hb
        rw [h9] at hstep
        cases hstep
        refine ⟨⟨nxt, rfl, mem_of_getElem? _ _ _ hn⟩, ?_⟩
        intro hfalse
        have hok' : ok = true := by
          cases ok
          · simp at hfalse
          · rfl
        rw [hok'] at hok
        exact ⟨q, rfl, (templates_cells q hqm).1, (templates_cells q hqm).2, le_refl _, hok⟩
  | moveLeft s s1 ret _ hmove ih =>
    exact legal_move s s1 (-1) 0 ret (le_refl _) hmove ih.1 ih.2
  | moveRight s s1 ret _ hmove ih =>
    exact legal_move s s1 1 0 ret (le_refl _) hmove ih.1 ih.2
  | moveDown s s1 ret _ hmove ih =>
    exact legal_move s s1 0 1 ret (by decide) hmove ih.1 ih.2
  | rotateCurrent s s1 _ hrot ih =>
    obtain ⟨hq, hl⟩ := ih
    rcases Option.eq_none_or_eq_some s.currentPiece with hc | ⟨p, hc⟩
    · rw [rotateCurrent_idle s hc] at hrot
      cases hrot
      exact ⟨hq, hl⟩
    · rw [rotateCurrent_active s p hc] at hrot
      split at hrot
      · cases hrot
      · rename_i hok
        cases hrot
        refine ⟨hq, ?_⟩
        intro hover
        obtain ⟨p', hp', h4, _, hy, _⟩ := hl hover
        rw [hc] at hp'
        cases hp'
        have hne : p ≠ [] := by
          intro h; rw [h] at h4; cases h4
        exact ⟨normalized p, rfl, by rw [normalized_length, h4],
          (normalized_origin p hne).1, hy, hok⟩
      · cases hrot
        exact ⟨hq, hl⟩
  | togglePause s _ ih =>
    unfold togglePause
    split
    · exact ih
    · exact ih

theorem reachable_noFull (s : Game) (h : Reachable s) :
    ∀ row ∈ s.grid, isFull row = false := by
  induction h with
  | reset s0 s r hr hreset =>
    obtain ⟨cur, nxt, _, _, heq⟩ := reset_eq s0 r hr
    rw [heq] at hreset
    cases hreset
    intro row hrow
    rw [(List.mem_replicate.1 hrow).2]
    rfl
  | softDropStep s s1 r hreach hr hstep ih =>
    obtain ⟨hgv, hc, hn, _, _⟩ := reachable_inv s hreach
    obtain ⟨p, hp⟩ := Option.isSome_iff_exists.1 hc
    obtain ⟨q, hq⟩ := Option.isSome_iff_exists.1 hn
    by_cases hidle : s.gameOver = true ∨ s.paused = true
    · rw [softDropStep_idle s r (Or.inr hidle)] at hstep
      cases hstep
      exact ih
    · have hover : s.gameOver = false := by
        cases h : s.gameOver
        · rfl
        · exact absurd (Or.inl h) hidle
      have hpaused : s.paused = false := by
        cases h : s.paused
        · rfl
        · exact absurd (Or.inr h) hidle
      obtain ⟨b, hb⟩ := canPlace_total s.grid hgv.1 p s.pieceX (s.pieceY + 1)
      cases b with
      | true =>
        rw [softDropStep_descend s r p hp hover hpaused hb] at hstep
        cases hstep
        exact ih
      | false =>
        obtain ⟨s2, s3, nxt, ok, _, _, _, _, h5, _, _, _, h9⟩ :=
          softDropStep_lock_eq s r p q hgv.1 hp hq hover hpaused hr.2.2 hb
        rw [h9] at hstep
        cases hstep
        show ∀ row ∈ s3.grid, isFull row = false
        rw [h5]
        intro row hrow
        rcases List.mem_append.1 hrow with h | h
        · rw [(List.mem_replicate.1 h).2]; exact isFull_emptyRow
        · simpa using (List.mem_filter.1 h).2
  | move s s1 dx dy ret hreach hmove ih =>
    obtain ⟨hgv, _⟩ := reachable_inv s hreach
    obtain ⟨s1', ret', h1, h2, _⟩ := move_total s hgv.1 dx dy
    rw [h1] at hmove
    cases hmove
    rw [h2]; exact ih
  | rotateCurrent s s1 hreach hrot ih =>
    obtain ⟨hgv, _⟩ := reachable_inv s hreach
    obtain ⟨s1', h1, h2, _⟩ := rotateCurrent_total s hgv.1
    rw [h1] at hrot
    cases hrot
    rw [h2]; exact ih
  | togglePause s _ ih =>
    unfold togglePause
    split
    · exact ih
    · exact ih

/-! ## The four-fold rotation identity -/

theorem exists_max_coord (f : Int × Int → Int) (piece : Piece) (hne : piece ≠ []) :
    ∃ m, (∀ c ∈ piece, f c ≤ m) ∧ ∃ c ∈ piece, f c = m := by
  induction piece with
  | nil => exact absurd rfl hne
  | cons c rest ih =>
    by_cases hrest : rest = []
    · subst hrest
      exact ⟨f c, by simp, c, by simp, rfl⟩
    · obtain ⟨m, hm, d, hd, hdm⟩ := ih hrest
      by_cases hc : f c ≤ m
      · refine ⟨m, ?_, d, List.mem_cons_of_mem _ hd, hdm⟩
        intro e he
        rcases List.mem_cons.1 he with h | h
        · rw [h]; exact hc
        · exact hm e h
      · refine ⟨f c, ?_, c, List.mem_cons_self _ _, rfl⟩
        intro e he
        rcases List.mem_cons.1 he with h | h
        · rw [h]
        · have := hm e h
          omega

/-- The candidate in terms of the bounding box: with `y0` the least `y` and `x1`
the greatest `x` of the piece, each offset `(x, y)` goes to `(y - y0, x1 - x)`. -/
theorem normalized_box (piece : Piece) (y0 x1 : Int)
    (hy : ∀ c ∈ piece, y0 ≤ c.2) (hya : ∃ c ∈ piece, c.2 = y0)
    (hx : ∀ c ∈ piece, c.1 ≤ x1) (hxa : ∃ c ∈ piece, c.1 = x1) :
    normalized piece = piece.map (fun c => (c.2 - y0, x1 - c.1)) := by
  have hne : piece ≠ [] := by
    obtain ⟨c, hc, _⟩ := hya
    exact List.ne_nil_of_mem hc
  obtain ⟨mx, my, h1, ⟨c1, hc1, e1⟩, h3, ⟨c2, hc2, e2⟩, heq⟩ := normalized_spec piece hne
  obtain ⟨d1, hd1, f1⟩ := hya
  obtain ⟨d2, hd2, f2⟩ := hxa
  have hmx : mx = y0 := by
    have a := h1 d1 hd1
    have b := hy c1 hc1
    omega
  have hmy : my = -x1 := by
    have a := h3 d2 hd2
    have b := hx c2 hc2
    omega
  rw [heq, hmx, hmy]
  apply List.map_congr_left
  intro c _
  ext
  · rfl
  · show -c.1 - -x1 = x1 - c.1
    omega

theorem normalized_map (piece : Piece) (g : Int × Int → Int × Int) (y0 x1 : Int)
    (hy : ∀ c ∈ piece, y0 ≤ (g c).2) (hya : ∃ c ∈ piece, (g c).2 = y0)
    (hx : ∀ c ∈ piece, (g c).1 ≤ x1) (hxa : ∃ c ∈ piece, (g c).1 = x1) :
    normalized (piece.map g) = piece.map (fun c => ((g c).2 - y0, x1 - (g c).1)) := by
  rw [normalized_box (piece.map g) y0 x1, List.map_map]
  · rfl
  · intro d hd
    obtain ⟨c, hc, rfl⟩ := List.mem_map.1 hd
    exact hy c hc
  · obtain ⟨c, hc, h⟩ := hya
    exact ⟨g c, List.mem_map_of_mem _ hc, h⟩
  · intro d hd
    obtain ⟨c, hc, rfl⟩ := List.mem_map.1 hd
    exact hx c hc
  · obtain ⟨c, hc, h⟩ := hxa
    exact ⟨g c, List.mem_map_of_mem _ hc, h⟩

theorem normalized_four (piece : Piece)
    (hx : ∀ c ∈ piece, 0 ≤ c.1) (hx0 : ∃ c ∈ piece, c.1 = 0)
    (hy : ∀ c ∈ piece, 0 ≤ c.2) (hy0 : ∃ c ∈ piece, c.2 = 0) :
    normalized (normalized (normalized (normalized piece))) = piece := by
  have hne : piece ≠ [] := by
    obtain ⟨c, hc, _⟩ := hx0
    exact List.ne_nil_of_mem hc
  obtain ⟨X, hX, cX, hcX, eX⟩ := exists_max_coord Prod.fst piece hne
  obtain ⟨Y, hY, cY, hcY, eY⟩ := exists_max_coord Prod.snd piece hne
  obtain ⟨a, ha, ea⟩ := hx0
  obtain ⟨b, hb, eb⟩ := hy0
  have e1 : normalized piece = piece.map (fun c => (c.2 - 0, X - c.1)) :=
    normalized_box piece 0 X hy ⟨b, hb, eb⟩ hX ⟨cX, hcX, eX⟩
  have e2 : normalized (piece.map (fun c => (c.2 - 0, X - c.1)))
      = piece.map (fun c => (X - c.1 - 0, Y - (c.2 - 0))) :=
    normalized_map piece _ 0 Y
      (fun c hc => by have := hX c hc; show 0 ≤ X - c.1; omega)
      ⟨cX, hcX, by show X - cX.1 = 0; omega⟩
      (fun c hc => by have := hY c hc; show c.2 - 0 ≤ Y; omega)
      ⟨cY, hcY, by show cY.2 - 0 = Y; omega⟩
  have e3 : normalized (piece.map (fun c => (X - c.1 - 0, Y - (c.2 - 0))))
      = piece.map (fun c => (Y - (c.2 - 0) - 0, X - (X - c.1 - 0))) :=
    normalized_map piece _ 0 X
      (fun c hc => by have := hY c hc; show 0 ≤ Y - (c.2 - 0); omega)
      ⟨cY, hcY, by show Y - (cY.2 - 0) = 0; omega⟩
      (fun c hc => by have := hx c hc; show X - c.1 - 0 ≤ X; omega)
      ⟨a, ha, by show X - a.1 - 0 = X; omega⟩
  have e4 : normalized (piece.map (fun c => (Y - (c.2 - 0) - 0, X - (X - c.1 - 0))))
      = piece.map (fun c => (X - (X - c.1 - 0) - 0, Y - (Y - (c.2 - 0) - 0))) :=
    normalized_map piece _ 0 Y
      (fun c hc => by have := hx c hc; show 0 ≤ X - (X - c.1 - 0); omega)
      ⟨a, ha, by show X - (X - a.1 - 0) = 0; omega⟩
      (fun c hc => by have := hy c hc; show Y - (c.2 - 0) - 0 ≤ Y; omega)
      ⟨b, hb, by show Y - (b.2 - 0) - 0 = Y; omega⟩
  rw [e1, e2, e3, e4]
  conv_rhs => rw [← List.map_id piece]
  apply List.map_congr_left
  intro c _
  ext
  · show X - (X - c.1 - 0) - 0 = c.1
    omega
  · show Y - (Y - (c.2 - 0) - 0) = c.2
    omega

theorem normalized_ne_nil (piece : Piece) (hne : piece ≠ []) : normalized piece ≠ [] := by
  intro h
  have := normalized_length piece
  rw [h] at this
  exact hne (List.length_eq_zero.1 this.symm)

/-! ## The specification's claims -/

/-- C1: on a board of 20 rows of 10 cells, `clearLines` leaves 20 rows: `k` empty
rows followed by the rows that were not full, in their original order, where `k`
is the number of rows whose cells are all non-zero; the score grows by `100 * k`.
The loop returns this for every fuel of at least `clearLinesFuel`. -/
theorem clearLines_removes_full_rows (s : Game) (hg : gridShape s.grid) :
    clearLines s = some { s with
        grid := List.replicate (s.grid.countP isFull) (List.replicate 10 0)
                  ++ s.grid.filter (fun row => !isFull row)
        score := if s.grid.countP isFull > 0
                 then s.score + ((s.grid.countP isFull : Nat) : Int) * 100 else s.score }
    ∧ (List.replicate (s.grid.countP isFull) (List.replicate 10 (0 : Int))
          ++ s.grid.filter (fun row => !isFull row)).length = 20
    ∧ (∀ row : List Int, isFull row = true ↔ ∀ v ∈ row, v ≠ 0)
    ∧ ∀ fuel, clearLinesFuel ≤ fuel →
        clearLinesLoop fuel s.grid 19 0 =
          some (List.replicate (s.grid.countP isFull) (List.replicate 10 0)
                  ++ s.grid.filter (fun row => !isFull row), s.grid.countP isFull) := by
  refine ⟨clearLines_eq s hg.1, ?_, isFull_iff, ?_⟩
  · have := countP_add_filter_not s.grid
    rw [hg.1] at this
    exact this
  · intro fuel hfuel
    exact clearLinesLoop_grid s.grid hg.1 fuel hfuel

theorem clearLines_removes_full_rows_witness :
    gridShape stackedGame.grid ∧
      clearLines stackedGame = some { stackedGame with grid := stackedCleared, score := 300 } :=
  ⟨by decide, by
    have h := (clearLines_removes_full_rows stackedGame (by decide)).1
    rw [h]; decide⟩

/-- C2: on a board of 20 rows of 10 cells, `canPlace(piece, x, y)` returns true
exactly when every offset lands in columns `0..9`, above row 20, and either above
the board or on an empty cell; it returns false otherwise; every read
`grid[gy][gx]` it makes is inside the board.  It takes the grid and returns a
boolean only: it changes no state. -/
theorem canPlace_iff_vacant (grid : Grid) (hg : gridShape grid) (piece : Piece) (x y : Int) :
    (canPlace grid piece x y = some true ↔
      ∀ o ∈ piece, 0 ≤ x + o.1 ∧ x + o.1 < 10 ∧ y + o.2 < 20 ∧
        (y + o.2 < 0 ∨ cellAt grid (y + o.2) (x + o.1) = some 0))
    ∧ (canPlace grid piece x y = some false ↔
      ¬ ∀ o ∈ piece, 0 ≤ x + o.1 ∧ x + o.1 < 10 ∧ y + o.2 < 20 ∧
        (y + o.2 < 0 ∨ cellAt grid (y + o.2) (x + o.1) = some 0))
    ∧ ∀ rd ∈ canPlaceReads grid piece x y,
        0 ≤ rd.1 ∧ rd.1 < 20 ∧ 0 ≤ rd.2 ∧ rd.2 < 10 ∧ (cellAt grid rd.1 rd.2).isSome = true := by
  have htrue := canPlace_true_iff grid hg piece x y
  refine ⟨htrue, ?_, ?_⟩
  · obtain ⟨b, hb⟩ := canPlace_total grid hg piece x y
    rw [← htrue, hb]
    cases b <;> simp
  · intro rd hrd
    have h := canPlaceReads_range grid piece x y rd hrd
    obtain ⟨row, v, hrow, hv, _⟩ := gridShape_read grid hg rd.1 rd.2 h.1 h.2.1 h.2.2.1 h.2.2.2
    simp only [GRID_H, GRID_W, Nat.cast_ofNat] at h
    exact ⟨h.1, h.2.1, h.2.2.1, h.2.2.2, by simp [cellAt, hrow, hv]⟩

theorem canPlace_iff_vacant_witness :
    gridShape emptyGrid ∧ canPlace emptyGrid [(0, 0), (1, 0), (0, 1), (1, 1)] 4 18 = some true :=
  ⟨by decide,
    (canPlace_iff_vacant emptyGrid (by decide) [(0, 0), (1, 0), (0, 1), (1, 1)] 4 18).1.2
      (by decide)⟩

/-- C3: `softDropStep` on a running state changes the score by exactly `100 * c`,
`c` the number of full rows removed: when the piece can descend, only the anchor
`y` changes (`c = 0`); otherwise `c` is the number of full rows of the grid after
the piece is locked.  The score never decreases under `softDropStep`, `move`,
`rotateCurrent` or `togglePause`. -/
theorem softDropStep_score (s : Game) (r : Rand) (hg : gridShape s.grid)
    (hnext : s.currentPiece.isSome = true → s.nextPiece.isSome = true) (hr : r.valid) :
    (∀ p, s.currentPiece = some p → s.paused = false → s.gameOver = false →
      (canPlace s.grid p s.pieceX (s.pieceY + 1) = some true ∨
        canPlace s.grid p s.pieceX (s.pieceY + 1) = some false) ∧
      (canPlace s.grid p s.pieceX (s.pieceY + 1) = some true →
        softDropStep s r = some { s with pieceY := s.pieceY + 1 }) ∧
      (canPlace s.grid p s.pieceX (s.pieceY + 1) = some false →
        ∃ s2 s1, placePiece s = some s2 ∧ softDropStep s r = some s1 ∧
          s1.grid = List.replicate (s2.grid.countP isFull) (List.replicate 10 0)
                      ++ s2.grid.filter (fun row => !isFull row) ∧
          s1.score = s.score + 100 * ((s2.grid.countP isFull : Nat) : Int)))
    ∧ (∃ s1, softDropStep s r = some s1 ∧ s.score ≤ s1.score)
    ∧ (∀ dx dy, ∃ s1 ret, move s dx dy = some (s1, ret) ∧ s.score ≤ s1.score)
    ∧ (∃ s1, rotateCurrent s = some s1 ∧ s.score ≤ s1.score)
    ∧ s.score ≤ (togglePause s).score := by
  refine ⟨softDropStep_running s r hg hnext hr, softDropStep_total s r hg hnext hr, ?_, ?_, ?_⟩
  · intro dx dy
    obtain ⟨s1, ret, h1, _, h3, _⟩ := move_total s hg dx dy
    exact ⟨s1, ret, h1, by rw [h3]⟩
  · obtain ⟨s1, h1, _, h3, _⟩ := rotateCurrent_total s hg
    exact ⟨s1, h1, by rw [h3]⟩
  · unfold togglePause
    split <;> exact le_refl _

theorem softDropStep_score_witness :
    gridShape tuckedGame.grid ∧ sampleRand.valid ∧
      ∃ s1, softDropStep tuckedGame sampleRand = some s1 ∧ s1.score = 100 :=
  ⟨by decide, by decide, by
    obtain ⟨s2, s1, h1, h2, _, h4⟩ :=
      ((softDropStep_score tuckedGame sampleRand (by decide) (by decide) (by decide)).1
        [(0, 0), (1, 0), (2, 0), (1, 1)] rfl rfl rfl).2.2 (by decide)
    have h2' : placePiece tuckedGame = some
        { tuckedGame with
          grid := List.replicate 18 (List.replicate 10 0) ++
            [[0, 0, 0, 0, 3, 3, 3, 0, 0, 0], [1, 1, 1, 1, 1, 3, 1, 1, 1, 1]] } := by decide
    rw [h2'] at h1
    cases h1
    exact ⟨s1, h2, by rw [h4]; decide⟩⟩

/-- C4: on a running state, `move(dx, dy)` returns true and sets the anchor to
`(pieceX + dx, pieceY + dy)`, changing nothing else, when `canPlace` accepts the
candidate anchor; otherwise it returns false and leaves the state unchanged.  A
piece with a cell at offset `x = 0`, anchored at `(0, 5)`, is not moved by
`move(-1, 0)`. -/
theorem move_spec (s : Game) (p : Piece) (dx dy : Int) (hg : gridShape s.grid)
    (hcur : s.currentPiece = some p) (hpaused : s.paused = false)
    (hover : s.gameOver = false) :
    (canPlace s.grid p (s.pieceX + dx) (s.pieceY + dy) = some true ∨
      canPlace s.grid p (s.pieceX + dx) (s.pieceY + dy) = some false)
    ∧ (canPlace s.grid p (s.pieceX + dx) (s.pieceY + dy) = some true →
        move s dx dy =
          some ({ s with pieceX := s.pieceX + dx, pieceY := s.pieceY + dy }, some true))
    ∧ (canPlace s.grid p (s.pieceX + dx) (s.pieceY + dy) = some false →
        move s dx dy = some (s, some false))
    ∧ ((∃ c ∈ p, c.1 = 0) → s.pieceX = 0 → s.pieceY = 5 →
        move s (-1) 0 = some (s, some false)) := by
  refine ⟨?_, ?_, ?_, ?_⟩
  · obtain ⟨b, hb⟩ := canPlace_total s.grid hg p (s.pieceX + dx) (s.pieceY + dy)
    cases b
    · exact Or.inr hb
    · exact Or.inl hb
  · intro h
    rw [move_running s p dx dy hcur hover hpaused, h]
  · intro h
    rw [move_running s p dx dy hcur hover hpaused, h]
  · rintro ⟨c, hc, hc0⟩ hx _
    obtain ⟨b, hb⟩ := canPlace_total s.grid hg p (s.pieceX + -1) (s.pieceY + 0)
    have hfalse : b = false := by
      cases b
      · rfl
      · have := (canPlace_true_iff s.grid hg p (s.pieceX + -1) (s.pieceY + 0)).1 hb c hc
        omega
    rw [move_running s p (-1) 0 hcur hover hpaused, hb, hfalse]

theorem move_spec_witness :
    gridShape sampleGame.grid ∧
      move sampleGame 1 0 = some ({ sampleGame with pieceX := 5 }, some true) :=
  ⟨by decide,
    (move_spec sampleGame [(0, 0), (1, 0), (2, 0), (1, 1)] 1 0 (by decide) rfl rfl rfl).2.1
      (by decide)⟩

/-- C5: with an active piece, `rotateCurrent` builds the candidate by mapping each
offset `(x, y)` to `(y, -x)` and subtracting the minimum x and the minimum y of
the mapped offsets; the piece becomes the candidate when `canPlace` accepts it at
the current anchor and is unchanged otherwise; anchor, grid, score and flags are
unchanged either way; the smallest x and the smallest y of the candidate of a
non-empty piece are both 0. -/
theorem rotateCurrent_spec (s : Game) (p : Piece) (hg : gridShape s.grid)
    (hcur : s.currentPiece = some p) :
    (p ≠ [] → ∃ minX minY,
        (∀ c ∈ p, minX ≤ c.2) ∧ (∃ c ∈ p, c.2 = minX) ∧
        (∀ c ∈ p, minY ≤ -c.1) ∧ (∃ c ∈ p, -c.1 = minY) ∧
        normalized p = p.map (fun c => (c.2 - minX, -c.1 - minY)))
    ∧ (p = [] → normalized p = [])
    ∧ (canPlace s.grid (normalized p) s.pieceX s.pieceY = some true ∨
        canPlace s.grid (normalized p) s.pieceX s.pieceY = some false)
    ∧ (canPlace s.grid (normalized p) s.pieceX s.pieceY = some true →
        rotateCurrent s = some { s with currentPiece := some (normalized p) })
    ∧ (canPlace s.grid (normalized p) s.pieceX s.pieceY = some false →
        rotateCurrent s = some s)
    ∧ (∃ s1, rotateCurrent s = some s1 ∧ s1.pieceX = s.pieceX ∧ s1.pieceY = s.pieceY ∧
        s1.grid = s.grid ∧ s1.score = s.score ∧ s1.gameOver = s.gameOver ∧
        s1.paused = s.paused)
    ∧ (p ≠ [] →
        (∀ c ∈ normalized p, 0 ≤ c.1 ∧ 0 ≤ c.2) ∧
        (∃ c ∈ normalized p, c.1 = 0) ∧ (∃ c ∈ normalized p, c.2 = 0)) := by
  refine ⟨normalized_spec p, ?_, ?_, ?_, ?_, ?_, normalized_origin p⟩
  · intro h; rw [h]; exact normalized_nil
  · obtain ⟨b, hb⟩ := canPlace_total s.grid hg (normalized p) s.pieceX s.pieceY
    cases b
    · exact Or.inr hb
    · exact Or.inl hb
  · intro h
    rw [rotateCurrent_active s p hcur, h]
  · intro h
    rw [rotateCurrent_active s p hcur, h]
  · obtain ⟨s1, h1, h2, h3, h4, h5, h6, h7, _⟩ := rotateCurrent_total s hg
    exact ⟨s1, h1, h4, h5, h2, h3, h6, h7⟩

theorem rotateCurrent_spec_witness :
    gridShape sampleGame.grid ∧
      rotateCurrent sampleGame =
        some { sampleGame with currentPiece := some [(0, 2), (0, 1), (0, 0), (1, 1)] } :=
  ⟨by decide,
    (rotateCurrent_spec sampleGame [(0, 0), (1, 0), (2, 0), (1, 1)] (by decide) rfl).2.2.2.1
      (by decide)⟩

/-- C6: when `softDropStep` locks the active piece, the new active piece is the
shape queued as `nextPiece`, anchored at `(4, 0) = (floor(10 / 2) - 1, 0)`, and
`gameOver` becomes true exactly when `canPlace` rejects that shape at `(4, 0)` on
the grid after locking and clearing.  The O shape spawns on the empty board; with
rows 0-1 of columns 4-5 occupied its spawn is rejected and the session is over. -/
theorem softDropStep_spawns_queued (s : Game) (r : Rand) (p q : Piece)
    (hg : gridShape s.grid)
    (hcur : s.currentPiece = some p) (hnext : s.nextPiece = some q)
    (hover : s.gameOver = false) (hpaused : s.paused = false) (hr : r.valid)
    (hblocked : canPlace s.grid p s.pieceX (s.pieceY + 1) = some false) :
    ∃ s2 s3 s1, placePiece s = some s2 ∧ clearLines s2 = some s3 ∧
      softDropStep s r = some s1 ∧
      s1.grid = s3.grid ∧ s1.currentPiece = some q ∧
      s1.pieceX = 4 ∧ s1.pieceX = ((GRID_W / 2 : Nat) : Int) - 1 ∧ s1.pieceY = 0 ∧
      (s1.gameOver = true ↔ canPlace s3.grid q 4 0 = some false) ∧
      (s1.gameOver = false ↔ canPlace s3.grid q 4 0 = some true) ∧
      canPlace emptyGrid [(0, 0), (1, 0), (0, 1), (1, 1)] 4 0 = some true ∧
      (q = [(0, 0), (1, 0), (0, 1), (1, 1)] →
        cellAt s3.grid 0 4 ≠ some 0 → cellAt s3.grid 0 5 ≠ some 0 →
        cellAt s3.grid 1 4 ≠ some 0 → cellAt s3.grid 1 5 ≠ some 0 →
        canPlace s3.grid q 4 0 = some false ∧ s1.gameOver = true) := by
  obtain ⟨s2, s3, nxt, ok, h1, h2, _, hg3, _, _, _, hok, hstep⟩ :=
    softDropStep_lock_eq s r p q hg hcur hnext hover hpaused hr.2.2 hblocked
  refine ⟨s2, s3, _, h1, h2, hstep, rfl, rfl, rfl, rfl, rfl, ?_, ?_, by decide, ?_⟩
  · rw [hok]; cases ok <;> simp
  · rw [hok]; cases ok <;> simp
  · intro hq h04 _ _ _
    have hfalse : ok = false := by
      cases ok
      · rfl
      · have := (canPlace_true_iff s3.grid hg3 q 4 0).1 hok (0, 0) (by rw [hq]; simp)
        rcases this.2.2.2 with h | h
        · omega
        · exact absurd h h04
    rw [hok, hfalse]
    exact ⟨rfl, rfl⟩

theorem softDropStep_spawns_queued_witness :
    gridShape landedGame.grid ∧ sampleRand.valid ∧
      canPlace landedGame.grid [(0, 0), (1, 0), (2, 0), (1, 1)] landedGame.pieceX
        (landedGame.pieceY + 1) = some false ∧
      ∃ s1, softDropStep landedGame sampleRand = some s1 ∧
        s1.currentPiece = some [(0, 0), (1, 0), (0, 1), (1, 1)] ∧
        s1.pieceX = 4 ∧ s1.pieceY = 0 :=
  ⟨by decide, by decide, by decide, by
    obtain ⟨_, _, s1, _, _, h3, _, h5, h6, _, h8, _⟩ :=
      softDropStep_spawns_queued landedGame sampleRand [(0, 0), (1, 0), (2, 0), (1, 1)]
        [(0, 0), (1, 0), (0, 1), (1, 1)] (by decide) rfl rfl rfl rfl (by decide) (by decide)
    exact ⟨s1, h3, h5, h6, h8⟩⟩

/-- C7: game-over is terminal.  With `gameOver = true`, `softDropStep`, `move` and
`togglePause` each leave the whole state unchanged, and `rotateCurrent` keeps
`gameOver` true: only `reset` makes it false again. -/
theorem gameOver_terminal (s : Game) (hover : s.gameOver = true) :
    (∀ r, softDropStep s r = some s)
    ∧ (∀ dx dy, move s dx dy = some (s, none))
    ∧ togglePause s = s
    ∧ (∀ s1, rotateCurrent s = some s1 → s1.gameOver = true) := by
  refine ⟨?_, ?_, ?_, ?_⟩
  · intro r; exact softDropStep_idle s r (Or.inr (Or.inl hover))
  · intro dx dy; exact move_idle s (Or.inr (Or.inl hover)) dx dy
  · simp only [togglePause, hover, if_true]
  · intro s1 h
    unfold rotateCurrent at h
    split at h
    · cases h; exact hover
    · split at h
      · cases h
      · cases h; exact hover
      · cases h; exact hover

theorem gameOver_terminal_witness :
    overGame.gameOver = true ∧ move overGame 0 1 = some (overGame, none) :=
  ⟨rfl, (gameOver_terminal overGame rfl).2.1 0 1⟩

/-- C8: `reset` always succeeds.  From every prior state and for all draws in
`0..6`, the state after `reset` has the empty 20x10 grid, score 0, `paused` and
`gameOver` false, `dropAccumulator` 0, and the drawn template as active piece at
anchor `(4, 0)`; each of the 7 templates is placeable at `(4, 0)` on the empty
board. -/
theorem reset_succeeds (s0 : Game) (r : Rand) (hr : r.valid) :
    (∃ cur nxt, PIECES[r.piece]? = some cur ∧ PIECES[r.next]? = some nxt ∧
      reset s0 r = some
        { grid := List.replicate 20 (List.replicate 10 0)
          currentPiece := some cur
          nextPiece := some nxt
          pieceX := 4
          pieceY := 0
          pieceColorIndex := (r.color : Int)
          score := 0
          gameOver := false
          paused := false
          dropAccumulator := 0
          lastTs := 0 })
    ∧ PIECES.length = 7
    ∧ ∀ t ∈ PIECES, canPlace (List.replicate 20 (List.replicate 10 0)) t 4 0 = some true :=
  ⟨reset_eq s0 r hr, rfl, templates_spawn⟩

theorem reset_succeeds_witness :
    sampleRand.valid ∧ reset overGame sampleRand = some startGame :=
  ⟨by decide, by
    obtain ⟨cur, nxt, h1, h2, h3⟩ := (reset_succeeds overGame sampleRand (by decide)).1
    cases h1
    cases h2
    rw [h3]
    rfl⟩

/-- C9: the board invariant.  In every state reachable from `reset` by
`softDropStep`, `move`, `rotateCurrent`, `togglePause` and `reset` (draws in
`0..6`), the grid has exactly 20 rows of exactly 10 cells and every cell is `0` or
a value in `1..7`.  Each operation returns from such a state, so the run goes on. -/
theorem board_invariant (s : Game) (h : Reachable s) :
    s.grid.length = 20
    ∧ (∀ row ∈ s.grid, row.length = 10)
    ∧ (∀ row ∈ s.grid, ∀ v ∈ row, v = 0 ∨ (1 ≤ v ∧ v ≤ 7))
    ∧ (∀ r : Rand, r.valid → ∃ s1, softDropStep s r = some s1)
    ∧ (∀ dx dy, ∃ s1 ret, move s dx dy = some (s1, ret))
    ∧ (∃ s1, rotateCurrent s = some s1)
    ∧ (∀ r : Rand, r.valid → ∃ s1, reset s r = some s1) := by
  obtain ⟨hgv, hc, hn, _, _⟩ := reachable_inv s h
  refine ⟨hgv.1.1, hgv.1.2, hgv.2, ?_, ?_, ?_, ?_⟩
  · intro r hr
    obtain ⟨s1, h1, _⟩ := softDropStep_total s r hgv.1 (fun _ => hn) hr
    exact ⟨s1, h1⟩
  · intro dx dy
    obtain ⟨s1, ret, h1, _⟩ := move_total s hgv.1 dx dy
    exact ⟨s1, ret, h1⟩
  · obtain ⟨s1, h1, _⟩ := rotateCurrent_total s hgv.1
    exact ⟨s1, h1⟩
  · intro r hr
    obtain ⟨cur, nxt, _, _, h3⟩ := reset_eq s r hr
    exact ⟨_, h3⟩

theorem board_invariant_witness :
    Reachable startGame ∧ startGame.grid.length = 20 :=
  ⟨Reachable.reset sampleGame startGame sampleRand (by decide) rfl,
    (board_invariant startGame
      (Reachable.reset sampleGame startGame sampleRand (by decide) rfl)).1⟩

/-- C10: on a board of 20 rows of 10 cells, `placePiece` sets every target cell
`(pieceX + bx, pieceY + by)` that lies inside the board to `pieceColorIndex + 1`
(non-zero for a colour index of at least 0), leaves every other cell unchanged,
and returns without a fault whatever targets fall outside the board. -/
theorem placePiece_spec (s : Game) (p : Piece) (hg : gridShape s.grid)
    (hcur : s.currentPiece = some p) :
    ∃ grid1, placePiece s = some { s with grid := grid1 } ∧ gridShape grid1 ∧
      (∀ c ∈ p, 0 ≤ s.pieceX + c.1 → s.pieceX + c.1 < 10 →
        0 ≤ s.pieceY + c.2 → s.pieceY + c.2 < 20 →
        cellAt grid1 (s.pieceY + c.2) (s.pieceX + c.1) = some (s.pieceColorIndex + 1) ∧
        (0 ≤ s.pieceColorIndex →
          cellAt grid1 (s.pieceY + c.2) (s.pieceX + c.1) ≠ some 0)) ∧
      (∀ cy cx, (∀ c ∈ p, ¬ (cy = s.pieceY + c.2 ∧ cx = s.pieceX + c.1)) →
        cellAt grid1 cy cx = cellAt s.grid cy cx) := by
  obtain ⟨grid1, _, hplace, hg1, hcell⟩ := placePiece_eq s p hg hcur
  refine ⟨grid1, hplace, hg1, ?_, ?_⟩
  · intro c hc hx0 hx1 hy0 hy1
    have hval : cellAt grid1 (s.pieceY + c.2) (s.pieceX + c.1)
        = some (s.pieceColorIndex + 1) := by
      rw [hcell]
      have e : (s.pieceX + c.1 - s.pieceX, s.pieceY + c.2 - s.pieceY) = c := by
        ext <;> simp
      rw [if_pos]
      refine ⟨hy0, by simp only [GRID_H, Nat.cast_ofNat]; exact hy1, hx0,
        by simp only [GRID_W, Nat.cast_ofNat]; exact hx1, ?_⟩
      rw [e]; exact hc
    refine ⟨hval, ?_⟩
    intro hcol
    rw [hval]
    intro h
    have := Option.some.inj h
    omega
  · intro cy cx hother
    rw [hcell, if_neg]
    rintro ⟨_, _, _, _, hmem⟩
    exact hother _ hmem ⟨by simp, by simp⟩

theorem placePiece_spec_witness :
    gridShape landedGame.grid ∧
      ∃ grid1, placePiece landedGame = some { landedGame with grid := grid1 } ∧
        cellAt grid1 19 5 = some 3 ∧ cellAt grid1 19 4 = some 0 :=
  ⟨by decide, by
    obtain ⟨grid1, h1, _, h3, h4⟩ :=
      placePiece_spec landedGame [(0, 0), (1, 0), (2, 0), (1, 1)] (by decide) rfl
    refine ⟨grid1, h1, (h3 (1, 1) (by decide) (by decide) (by decide) (by decide)
      (by decide)).1, ?_⟩
    rw [h4 19 4 (by decide)]
    decide⟩

/-- C11: the gravity clock.  A `frame` call entered while running, with a
non-negative accumulator `a` and elapsed time `dt >= 0` in whole milliseconds,
calls `softDropStep` exactly `floor((a + dt) / 500)` times and leaves
`(a + dt) mod 500` in the accumulator, for every fuel of at least `frameFuel`;
`a = 0`, `dt = 1800` gives 3 calls and 300 ms left. -/
theorem frame_gravity_clock (s : Game) (ts : Int) (rands : Nat → Rand)
    (hg : gridShape s.grid)
    (hnext : s.currentPiece.isSome = true → s.nextPiece.isSome = true)
    (hr : ∀ i, (rands i).valid)
    (hpaused : s.paused = false) (hover : s.gameOver = false)
    (ha : 0 ≤ s.dropAccumulator) (hdt : 0 ≤ dt s ts) :
    ∃ s1 calls, frame s ts rands = some (s1, calls) ∧
      (calls.length : Int) = (s.dropAccumulator + dt s ts) / 500 ∧
      s1.dropAccumulator = (s.dropAccumulator + dt s ts) % 500 ∧
      (∀ fuel, frameFuel (s.dropAccumulator + dt s ts) ≤ fuel →
        frameLoop fuel
          { s with lastTs := ts, dropAccumulator := s.dropAccumulator + dt s ts } rands []
          = some (s1, calls)) ∧
      (s.dropAccumulator = 0 → dt s ts = 1800 →
        calls.length = 3 ∧ s1.dropAccumulator = 300) := by
  obtain ⟨s1, made, h1, h2, h3, _⟩ := frameLoop_spec rands hr
    (frameFuel (s.dropAccumulator + dt s ts))
    { s with lastTs := ts, dropAccumulator := s.dropAccumulator + dt s ts } [] hg hnext
    (le_refl _)
  simp only [List.nil_append] at h1
  simp only at h2 h3
  have hlen : (made.length : Int) = (s.dropAccumulator + dt s ts) / 500 := by
    rw [h2]; omega
  have hacc : s1.dropAccumulator = (s.dropAccumulator + dt s ts) % 500 := by
    rw [h3, hlen]; omega
  refine ⟨s1, made, by rw [frame_running s ts rands hpaused hover, h1], hlen, hacc, ?_, ?_⟩
  · intro fuel hfuel
    obtain ⟨k, rfl⟩ := Nat.exists_eq_add_of_le hfuel
    exact frameLoop_mono rands _ _ _ _ k h1
  · intro h0 h1800
    rw [h0, h1800] at hlen hacc
    constructor
    · have : (made.length : Int) = 3 := by rw [hlen]; decide
      exact_mod_cast this
    · rw [hacc]; decide

theorem frame_gravity_clock_witness :
    gridShape tickingGame.grid ∧ dt tickingGame 2800 = 1800 ∧
      ∃ s1 calls, frame tickingGame 2800 (fun _ => sampleRand) = some (s1, calls) ∧
        calls.length = 3 ∧ s1.dropAccumulator = 300 :=
  ⟨by decide, by decide, by
    obtain ⟨s1, calls, h1, _, _, _, h5⟩ :=
      frame_gravity_clock tickingGame 2800 (fun _ => sampleRand) (by decide) (by decide)
        (fun _ => (by decide : sampleRand.valid)) rfl rfl (by decide) (by decide)
    exact ⟨s1, calls, h1, h5 rfl (by decide)⟩⟩

/-- C12, as stated, fails: on `toppedGame` with 1000 ms elapsed the first call of
`softDropStep` locks the piece and ends the game, and the loop of the same frame
calls `softDropStep` a second time, in a state with `gameOver = true`. -/
theorem frame_calls_after_gameOver :
    (frame toppedGame 2000 (fun _ => sampleRand)).map
        (fun res => res.2.map (fun c => (c.paused, c.gameOver)))
      = some [(false, false), (false, true)] := by
  decide

/-- C12, amended: `frame` calls `softDropStep` only when `paused` and `gameOver`
are both false at its entry; `paused` is false at every call and `gameOver` is
false at the first one; a call made with `gameOver = true`, after an earlier
iteration of the same frame ended the game, leaves the state unchanged. -/
theorem frame_calls_guarded (s : Game) (ts : Int) (rands : Nat → Rand)
    (hg : gridShape s.grid)
    (hnext : s.currentPiece.isSome = true → s.nextPiece.isSome = true)
    (hr : ∀ i, (rands i).valid) :
    ∃ s1 calls, frame s ts rands = some (s1, calls) ∧
      (calls ≠ [] → s.paused = false ∧ s.gameOver = false) ∧
      (∀ c ∈ calls, c.paused = false) ∧
      (∀ c, calls.head? = some c → c.gameOver = false) ∧
      (∀ c ∈ calls, c.gameOver = true → ∀ r, softDropStep c r = some c) := by
  by_cases hrun : s.paused = false ∧ s.gameOver = false
  · obtain ⟨s1, made, h1, _, _, _, _, _, h7, h8⟩ := frameLoop_spec rands hr
      (frameFuel (s.dropAccumulator + dt s ts))
      { s with lastTs := ts, dropAccumulator := s.dropAccumulator + dt s ts } [] hg hnext
      (le_refl _)
    simp only [List.nil_append] at h1
    refine ⟨s1, made, by rw [frame_running s ts rands hrun.1 hrun.2, h1], fun _ => hrun, ?_, ?_,
      ?_⟩
    · intro c hc; rw [h7 c hc]; exact hrun.1
    · intro c hc; rw [h8 c hc]; exact hrun.2
    · intro c _ hover r
      exact softDropStep_idle c r (Or.inr (Or.inl hover))
  · have hidle : s.paused = true ∨ s.gameOver = true := by
      cases h1 : s.paused <;> cases h2 : s.gameOver <;> simp_all
    refine ⟨_, [], frame_idle s ts rands hidle, fun h => absurd rfl h, by simp, by simp, by simp⟩

theorem frame_calls_guarded_witness :
    gridShape toppedGame.grid ∧
      ∃ s1 calls, frame toppedGame 2000 (fun _ => sampleRand) = some (s1, calls) ∧
        ∀ c ∈ calls, c.paused = false :=
  ⟨by decide, by
    obtain ⟨s1, calls, h1, _, h3, _⟩ :=
      frame_calls_guarded toppedGame 2000 (fun _ => sampleRand) (by decide) (by decide)
        (fun _ => (by decide : sampleRand.valid))
    exact ⟨s1, calls, h1, h3⟩⟩

/-- C13: player-driven input is a no-op when paused or game-over.  When `paused`
or `gameOver` is true, `move` leaves the whole state unchanged, and so does the
rotation input at each of its call sites: `rotateCurrent` under the guard
`!paused && !gameOver` (key handler, canvas tap) and through `doAction` (touch
button).  The body of `rotateCurrent` changes at most `currentPiece`. -/
theorem input_noop_when_idle (s : Game) (h : s.paused = true ∨ s.gameOver = true) :
    (∀ dx dy, move s dx dy = some (s, none))
    ∧ keyArrowUp s = some s
    ∧ doAction rotateCurrent s = some s
    ∧ (∀ s1, rotateCurrent s = some s1 →
        s1 = s ∨ ∃ p, s.currentPiece = some p ∧
          s1 = { s with currentPiece := some (normalized p) }) := by
  refine ⟨?_, keyArrowUp_idle s h, doAction_idle rotateCurrent s h, rotateCurrent_cases s⟩
  intro dx dy
  exact move_idle s (Or.inr (by rcases h with h | h; exact Or.inr h; exact Or.inl h)) dx dy

theorem input_noop_when_idle_witness :
    pausedGame.paused = true ∧ keyArrowUp pausedGame = some pausedGame :=
  ⟨rfl, (input_noop_when_idle pausedGame (Or.inl rfl)).2.1⟩

/-- C14: accumulated time is frozen while paused.  With `paused` or `gameOver`
true at entry, `frame` calls nothing and changes only `lastTs`; the first frame
after resuming at `ts2` has `dt = ts2 - ts`, the time since the previous frame
(for a previous timestamp `ts` other than 0), and accumulates exactly that. -/
theorem frame_frozen (s : Game) (ts : Int) (rands : Nat → Rand)
    (h : s.paused = true ∨ s.gameOver = true) :
    frame s ts rands = some ({ s with lastTs := ts }, [])
    ∧ (s.gameOver = false → ts ≠ 0 → ∀ ts2,
        dt (togglePause { s with lastTs := ts }) ts2 = ts2 - ts ∧
        (s.paused = true →
          frame (togglePause { s with lastTs := ts }) ts2 rands =
            frameLoop (frameFuel (s.dropAccumulator + (ts2 - ts)))
              { s with
                paused := false
                lastTs := ts2
                dropAccumulator := s.dropAccumulator + (ts2 - ts) } rands [])) := by
  refine ⟨frame_idle s ts rands h, ?_⟩
  intro hover hts ts2
  have hdt : dt (togglePause { s with lastTs := ts }) ts2 = ts2 - ts := by
    simp [dt, togglePause, hover, hts]
  refine ⟨hdt, ?_⟩
  intro hp
  rw [frame_running _ ts2 rands (by simp [togglePause, hover, hp])
    (by simp [togglePause, hover]), hdt]
  simp [togglePause, hover, hp]

theorem frame_frozen_witness :
    pausedGame.paused = true ∧
      frame pausedGame 5000 (fun _ => sampleRand)
        = some ({ pausedGame with lastTs := 5000 }, []) :=
  ⟨rfl, (frame_frozen pausedGame 5000 (fun _ => sampleRand) (Or.inl rfl)).1⟩
/-- C15: rotating the O shape is a no-op.  The candidate of the O template covers
the same four offsets as the template, and so does the result of every number of
repeated applications (the order of the offsets in the list changes). -/
theorem rotate_O_noop :
    PIECES[1]? = some [(0, 0), (1, 0), (0, 1), (1, 1)]
    ∧ sameCells (normalized [(0, 0), (1, 0), (0, 1), (1, 1)]) [(0, 0), (1, 0), (0, 1), (1, 1)]
    ∧ (normalized [(0, 0), (1, 0), (0, 1), (1, 1)]).length = 4
    ∧ ∀ n : Nat,
        sameCells (normalized^[n] [(0, 0), (1, 0), (0, 1), (1, 1)])
          [(0, 0), (1, 0), (0, 1), (1, 1)]
        ∧ (normalized^[n] [(0, 0), (1, 0), (0, 1), (1, 1)]).length = 4 := by
  refine ⟨rfl, by decide, by decide, ?_⟩
  intro n
  rw [iterate_mod_four normalized _ (by decide) n]
  rcases mod_four_cases n with h | h | h | h <;> rw [h] <;> decide

/-- C16: for the I, S and Z templates one rotate-and-normalise step gives a set of
cells different from the template's and two steps give the template's set again;
every even number of steps gives the template's cells and every odd number those
of the first candidate. -/
theorem rotate_ISZ_two_orientations :
    (PIECES[0]? = some [(0, 0), (1, 0), (2, 0), (3, 0)]
      ∧ PIECES[3]? = some [(1, 0), (2, 0), (0, 1), (1, 1)]
      ∧ PIECES[4]? = some [(0, 0), (1, 0), (1, 1), (2, 1)])
    ∧ (¬ sameCells (normalized [(0, 0), (1, 0), (2, 0), (3, 0)]) [(0, 0), (1, 0), (2, 0), (3, 0)]
      ∧ ¬ sameCells (normalized [(1, 0), (2, 0), (0, 1), (1, 1)])
          [(1, 0), (2, 0), (0, 1), (1, 1)]
      ∧ ¬ sameCells (normalized [(0, 0), (1, 0), (1, 1), (2, 1)])
          [(0, 0), (1, 0), (1, 1), (2, 1)])
    ∧ (sameCells (normalized (normalized [(0, 0), (1, 0), (2, 0), (3, 0)]))
          [(0, 0), (1, 0), (2, 0), (3, 0)]
      ∧ sameCells (normalized (normalized [(1, 0), (2, 0), (0, 1), (1, 1)]))
          [(1, 0), (2, 0), (0, 1), (1, 1)]
      ∧ sameCells (normalized (normalized [(0, 0), (1, 0), (1, 1), (2, 1)]))
          [(0, 0), (1, 0), (1, 1), (2, 1)])
    ∧ ∀ n : Nat,
        sameCells (normalized^[2 * n] [(0, 0), (1, 0), (2, 0), (3, 0)])
          [(0, 0), (1, 0), (2, 0), (3, 0)]
        ∧ sameCells (normalized^[2 * n + 1] [(0, 0), (1, 0), (2, 0), (3, 0)])
          (normalized [(0, 0), (1, 0), (2, 0), (3, 0)])
        ∧ sameCells (normalized^[2 * n] [(1, 0), (2, 0), (0, 1), (1, 1)])
          [(1, 0), (2, 0), (0, 1), (1, 1)]
        ∧ sameCells (normalized^[2 * n + 1] [(1, 0), (2, 0), (0, 1), (1, 1)])
          (normalized [(1, 0), (2, 0), (0, 1), (1, 1)])
        ∧ sameCells (normalized^[2 * n] [(0, 0), (1, 0), (1, 1), (2, 1)])
          [(0, 0), (1, 0), (1, 1), (2, 1)]
        ∧ sameCells (normalized^[2 * n + 1] [(0, 0), (1, 0), (1, 1), (2, 1)])
          (normalized [(0, 0), (1, 0), (1, 1), (2, 1)]) := by
  refine ⟨by decide, by decide, by decide, ?_⟩
  intro n
  have he : (2 * n) % 4 = 0 ∨ (2 * n) % 4 = 2 := by omega
  have ho : (2 * n + 1) % 4 = 1 ∨ (2 * n + 1) % 4 = 3 := by omega
  refine ⟨?_, ?_, ?_, ?_, ?_, ?_⟩
  · rw [iterate_mod_four normalized _ (by decide) (2 * n)]
    rcases he with h | h <;> rw [h] <;> decide
  · rw [iterate_mod_four normalized _ (by decide) (2 * n + 1)]
    rcases ho with h | h <;> rw [h] <;> decide
  · rw [iterate_mod_four normalized _ (by decide) (2 * n)]
    rcases he with h | h <;> rw [h] <;> decide
  · rw [iterate_mod_four normalized _ (by decide) (2 * n + 1)]
    rcases ho with h | h <;> rw [h] <;> decide
  · rw [iterate_mod_four normalized _ (by decide) (2 * n)]
    rcases he with h | h <;> rw [h] <;> decide
  · rw [iterate_mod_four normalized _ (by decide) (2 * n + 1)]
    rcases ho with h | h <;> rw [h] <;> decide

/-- C17, as stated, fails: there is no template among S, Z, J, L for which four
successive rotate-and-normalise steps give a list different from the template. -/
theorem rotate_SZJL_no_exception :
    ¬ ∃ t ∈ [[(1, 0), (2, 0), (0, 1), (1, 1)], [(0, 0), (1, 0), (1, 1), (2, 1)],
              [(0, 0), (0, 1), (1, 1), (2, 1)], [(2, 0), (0, 1), (1, 1), (2, 1)]],
        normalized (normalized (normalized (normalized t))) ≠ (t : Piece) := by
  decide

/-- C17, amended: for each of the S, Z, J and L templates four successive
rotate-and-normalise steps return exactly the template. -/
theorem rotate_SZJL_four_steps :
    (PIECES[3]? = some [(1, 0), (2, 0), (0, 1), (1, 1)]
      ∧ PIECES[4]? = some [(0, 0), (1, 0), (1, 1), (2, 1)]
      ∧ PIECES[5]? = some [(0, 0), (0, 1), (1, 1), (2, 1)]
      ∧ PIECES[6]? = some [(2, 0), (0, 1), (1, 1), (2, 1)])
    ∧ normalized (normalized (normalized (normalized [(1, 0), (2, 0), (0, 1), (1, 1)])))
        = [(1, 0), (2, 0), (0, 1), (1, 1)]
    ∧ normalized (normalized (normalized (normalized [(0, 0), (1, 0), (1, 1), (2, 1)])))
        = [(0, 0), (1, 0), (1, 1), (2, 1)]
    ∧ normalized (normalized (normalized (normalized [(0, 0), (0, 1), (1, 1), (2, 1)])))
        = [(0, 0), (0, 1), (1, 1), (2, 1)]
    ∧ normalized (normalized (normalized (normalized [(2, 0), (0, 1), (1, 1), (2, 1)])))
        = [(2, 0), (0, 1), (1, 1), (2, 1)] := by
  decide

/-- C18: the legal-position invariant.  In every state reachable by `move(-1, 0)`,
`move(1, 0)`, `move(0, 1)`, `rotateCurrent`, `softDropStep`, `togglePause` and
`reset`, if `gameOver` is false the active piece has exactly 4 cells with
non-negative offsets, each inside the board on an empty grid cell; so
`placePiece` writes all four cells. -/
theorem legal_position (s : Game) (h : ReachableInput s) (hover : s.gameOver = false) :
    ∃ p, s.currentPiece = some p ∧ p.length = 4 ∧
      (∀ c ∈ p, 0 ≤ c.1 ∧ 0 ≤ c.2) ∧
      (∀ c ∈ p, 0 ≤ s.pieceX + c.1 ∧ s.pieceX + c.1 < 10 ∧
        0 ≤ s.pieceY + c.2 ∧ s.pieceY + c.2 < 20 ∧
        cellAt s.grid (s.pieceY + c.2) (s.pieceX + c.1) = some 0) ∧
      ∃ s2, placePiece s = some s2 ∧
        ∀ c ∈ p, cellAt s2.grid (s.pieceY + c.2) (s.pieceX + c.1)
          = some (s.pieceColorIndex + 1) := by
  obtain ⟨hgv, _⟩ := reachable_inv s (reachableInput_reachable s h)
  obtain ⟨p, hp, h4, hoff, hy, hok⟩ := (reachableInput_legal s h).2 hover
  have hin : ∀ c ∈ p, 0 ≤ s.pieceX + c.1 ∧ s.pieceX + c.1 < 10 ∧
      0 ≤ s.pieceY + c.2 ∧ s.pieceY + c.2 < 20 ∧
      cellAt s.grid (s.pieceY + c.2) (s.pieceX + c.1) = some 0 := by
    intro c hc
    obtain ⟨a1, a2, a3, a4⟩ := (canPlace_true_iff s.grid hgv.1 p s.pieceX s.pieceY).1 hok c hc
    have := (hoff c hc).2
    refine ⟨a1, a2, by omega, a3, ?_⟩
    rcases a4 with a4 | a4
    · omega
    · exact a4
  obtain ⟨g1, _, hplace, _, hcell⟩ := placePiece_eq s p hgv.1 hp
  refine ⟨p, hp, h4, hoff, hin, _, hplace, ?_⟩
  intro c hc
  obtain ⟨a1, a2, a3, a4, _⟩ := hin c hc
  show cellAt g1 (s.pieceY + c.2) (s.pieceX + c.1) = some (s.pieceColorIndex + 1)
  rw [hcell, if_pos]
  have e : (s.pieceX + c.1 - s.pieceX, s.pieceY + c.2 - s.pieceY) = c := by
    ext <;> simp
  refine ⟨a3, by simp only [GRID_H, Nat.cast_ofNat]; exact a4, a1,
    by simp only [GRID_W, Nat.cast_ofNat]; exact a2, ?_⟩
  rw [e]; exact hc

theorem legal_position_witness :
    ReachableInput startGame ∧ startGame.gameOver = false ∧
      ∃ p, startGame.currentPiece = some p ∧ p.length = 4 :=
  ⟨ReachableInput.reset sampleGame startGame sampleRand (by decide) rfl, rfl, by
    obtain ⟨p, h1, h2, _⟩ := legal_position startGame
      (ReachableInput.reset sampleGame startGame sampleRand (by decide) rfl) rfl
    exact ⟨p, h1, h2⟩⟩

/-- C19: the no-full-row invariant.  In every state reachable from `reset` by
`softDropStep`, `move`, `rotateCurrent`, `togglePause` and `reset`, no row of
the grid is full: every row has at least one empty cell. -/
theorem no_full_row (s : Game) (h : Reachable s) :
    ∀ row ∈ s.grid, isFull row = false ∧ ∃ v ∈ row, v = 0 := by
  intro row hrow
  have hnf := reachable_noFull s h row hrow
  refine ⟨hnf, ?_⟩
  by_contra hcon
  have hall : ∀ v ∈ row, v ≠ 0 := by
    intro v hv hv0
    exact hcon ⟨v, hv, hv0⟩
  rw [(isFull_iff row).2 hall] at hnf
  cases hnf

theorem no_full_row_witness :
    Reachable startGame ∧ ∀ row ∈ startGame.grid, isFull row = false :=
  ⟨Reachable.reset sampleGame startGame sampleRand (by decide) rfl, fun row hrow =>
    (no_full_row startGame
      (Reachable.reset sampleGame startGame sampleRand (by decide) rfl) row hrow).1⟩

/-- C20: the four-fold rotation identity.  For every list of offsets whose
smallest x and smallest y are both 0, four rotate-and-normalise steps return
exactly the original list; the candidate again has smallest offsets 0, and each
of the 7 templates satisfies the condition. -/
theorem rotate_four_identity (p : Piece)
    (hx : ∀ c ∈ p, 0 ≤ c.1) (hx0 : ∃ c ∈ p, c.1 = 0)
    (hy : ∀ c ∈ p, 0 ≤ c.2) (hy0 : ∃ c ∈ p, c.2 = 0) :
    normalized (normalized (normalized (normalized p))) = p
    ∧ normalized^[4] p = p
    ∧ ((∀ c ∈ normalized p, 0 ≤ c.1 ∧ 0 ≤ c.2) ∧
        (∃ c ∈ normalized p, c.1 = 0) ∧ (∃ c ∈ normalized p, c.2 = 0))
    ∧ (∀ t ∈ PIECES, (∀ c ∈ t, 0 ≤ c.1 ∧ 0 ≤ c.2) ∧ (∃ c ∈ t, c.1 = 0) ∧
        (∃ c ∈ t, c.2 = 0) ∧ normalized (normalized (normalized (normalized t))) = t) := by
  have hne : p ≠ [] := by
    obtain ⟨c, hc, _⟩ := hx0
    exact List.ne_nil_of_mem hc
  exact ⟨normalized_four p hx hx0 hy hy0, normalized_four p hx hx0 hy hy0,
    normalized_origin p hne, by decide⟩

theorem rotate_four_identity_witness :
    (∃ c ∈ ([(0, 0), (0, 1), (1, 1), (2, 1)] : Piece), c.1 = 0) ∧
      normalized (normalized (normalized (normalized [(0, 0), (0, 1), (1, 1), (2, 1)])))
        = [(0, 0), (0, 1), (1, 1), (2, 1)] :=
  ⟨by decide,
    (rotate_four_identity [(0, 0), (0, 1), (1, 1), (2, 1)] (by decide) (by decide) (by decide)
      (by decide)).1⟩

end Tetris
